import Mathlib

/-!
Verification of the search core of the `astar_idastar_puzzle` repository.

States are modelled as `List ℕ` (the source uses tuples of ints, with 0 the
blank).  Wall-clock timeout checks are modelled by an oracle `ℕ → Bool`
giving the outcome of the k-th check performed by a run; the random number
generator used by `scramble` is modelled by an arbitrary stream of choices.
Search loops and recursions are fuel-indexed; `none`/a dedicated fuel-out
constructor means the fuel ran out, and theorems quantify over or exhibit
sufficient fuel.
-/

set_option maxHeartbeats 1000000

/-- Swap the entries at positions `i` and `j` of a list
(`lst[i], lst[j] = lst[j], lst[i]` in the source). -/
def listSwap (s : List ℕ) (i j : ℕ) : List ℕ :=
  (s.set i (s.getD j 0)).set j (s.getD i 0)

/-- Number of inversions of a list: pairs `i < j` with `l[i] > l[j]`
(the nested loops of `is_solvable` in the source). -/
def inversions : List ℕ → ℕ
  | [] => 0
  | x :: xs => xs.countP (fun y => decide (y < x)) + inversions xs

/-- Count conflicting pairs for `linear_conflict`: tiles are given in board
order with their goal coordinate along the line; each earlier tile whose goal
coordinate exceeds a later tile's contributes 2. -/
def lcPairs : List ℕ → ℕ
  | [] => 0
  | t :: rest => 2 * rest.countP (fun u => decide (u < t)) + lcPairs rest

namespace Puzzle8

/-- `GOAL` of `src/domains/puzzle8.py`. -/
def GOAL : List ℕ := [1, 2, 3, 4, 5, 6, 7, 8, 0]

/-- The precomputed `_NEI` table of blank moves on the 3x3 grid. -/
def NEI : ℕ → List ℕ
  | 0 => [1, 3]
  | 1 => [0, 2, 4]
  | 2 => [1, 5]
  | 3 => [0, 4, 6]
  | 4 => [1, 3, 5, 7]
  | 5 => [2, 4, 8]
  | 6 => [3, 7]
  | 7 => [4, 6, 8]
  | 8 => [5, 7]
  | _ => []

/-- `neighbors` of `puzzle8.py`: all states obtained by sliding the blank,
with unit cost. -/
def neighbors (s : List ℕ) : List (List ℕ × ℕ) :=
  let i := s.indexOf 0
  (NEI i).map (fun j => (listSwap s i j, 1))

/-- `is_solvable` of `puzzle8.py`: parity of inversions of the non-blank
tiles must be even. -/
def is_solvable (s : List ℕ) : Bool :=
  inversions (s.filter (fun x => decide (x ≠ 0))) % 2 == 0

/-- `scramble` of `puzzle8.py`.  `choice k` abstracts the k-th call to
`rng.choice`; it is reduced modulo the candidate count, so every RNG seed
realises one choice stream. -/
def scrambleStep (s : List ℕ) (lastBlank : Option ℕ) (pick : ℕ) :
    List ℕ × Option ℕ :=
  let z := s.indexOf 0
  let cand₀ := NEI z
  let cand := match lastBlank with
    | some lb => if lb ∈ cand₀ ∧ cand₀.length > 1 then cand₀.erase lb else cand₀
    | none => cand₀
  let j := cand.getD (pick % cand.length) 0
  (listSwap s z j, some z)

/-- The scramble loop: `depth` random blank moves from `GOAL` with no
immediate backtrack. -/
def scrambleAux (choice : ℕ → ℕ) : ℕ → ℕ → List ℕ → Option ℕ → List ℕ
  | 0, _, s, _ => s
  | n + 1, k, s, lb =>
    let (s2, lb2) := scrambleStep s lb (choice k)
    scrambleAux choice n (k + 1) s2 lb2

def scramble (depth : ℕ) (choice : ℕ → ℕ) : List ℕ :=
  scrambleAux choice depth 0 GOAL none

/-- `_goal_pos` of `puzzle8.py` (row, column of a tile in `GOAL`). -/
def goalPos (t : ℕ) : ℕ × ℕ :=
  let i := GOAL.indexOf t
  (i / 3, i % 3)

/-- `manhattan` of `puzzle8.py`. -/
def manhattan (s : List ℕ) : ℕ :=
  (s.enum.map (fun p =>
    if p.2 = 0 then 0
    else
      Nat.dist (p.1 / 3) (goalPos p.2).1 + Nat.dist (p.1 % 3) (goalPos p.2).2)).sum

/-- The row-conflict tiles of row `r`: goal columns, in board order, of the
non-blank tiles of the row whose goal row is `r`. -/
def rowTiles (s : List ℕ) (r : ℕ) : List ℕ :=
  (((s.drop (3 * r)).take 3).filter
      (fun t => decide (t ≠ 0) && decide ((goalPos t).1 = r))).map
    (fun t => (goalPos t).2)

/-- The column-conflict tiles of column `c`. -/
def colTiles (s : List ℕ) (c : ℕ) : List ℕ :=
  (([s.getD c 0, s.getD (c + 3) 0, s.getD (c + 6) 0]).filter
      (fun t => decide (t ≠ 0) && decide ((goalPos t).2 = c))).map
    (fun t => (goalPos t).1)

/-- `linear_conflict` of `puzzle8.py`: Manhattan plus 2 per inverted pair in
a row or column. -/
def linear_conflict (s : List ℕ) : ℕ :=
  manhattan s +
    (((List.range 3).map (fun r => lcPairs (rowTiles s r))).sum +
      ((List.range 3).map (fun c => lcPairs (colTiles s c))).sum)

end Puzzle8

namespace RectPuzzle

/-- `self.GOAL` of `RectPuzzle` in `puzzlemn.py`. -/
def GOAL (R C : ℕ) : List ℕ :=
  (List.range (R * C - 1)).map (· + 1) ++ [0]

/-- `self._nei` of `RectPuzzle`: neighbor cells of the blank at index `i`,
in the order up, down, left, right. -/
def nei (R C i : ℕ) : List ℕ :=
  (if i / C > 0 then [i - C] else []) ++
    (if i / C < R - 1 then [i + C] else []) ++
      (if i % C > 0 then [i - 1] else []) ++
        (if i % C < C - 1 then [i + 1] else [])

/-- `RectPuzzle.neighbors`. -/
def neighbors (R C : ℕ) (s : List ℕ) : List (List ℕ × ℕ) :=
  let z := s.indexOf 0
  (nei R C z).map (fun j => (listSwap s z j, 1))

/-- `RectPuzzle.is_solvable`: odd width needs even inversions; even width
needs `inversions + blank_row_from_bottom` odd. -/
def is_solvable (R C : ℕ) (s : List ℕ) : Bool :=
  let inv := inversions (s.filter (fun x => decide (x ≠ 0)))
  if C % 2 = 1 then inv % 2 == 0
  else (inv + (R - s.indexOf 0 / C)) % 2 == 1

/-- `RectPuzzle.scramble`, with the RNG abstracted as for `Puzzle8.scramble`. -/
def scrambleStep (R C : ℕ) (s : List ℕ) (lastBlank : Option ℕ) (pick : ℕ) :
    List ℕ × Option ℕ :=
  let z := s.indexOf 0
  let cand₀ := nei R C z
  let cand := match lastBlank with
    | some lb => if lb ∈ cand₀ ∧ cand₀.length > 1 then cand₀.erase lb else cand₀
    | none => cand₀
  let j := cand.getD (pick % cand.length) 0
  (listSwap s z j, some z)

def scrambleAux (R C : ℕ) (choice : ℕ → ℕ) :
    ℕ → ℕ → List ℕ → Option ℕ → List ℕ
  | 0, _, s, _ => s
  | n + 1, k, s, lb =>
    let (s2, lb2) := scrambleStep R C s lb (choice k)
    scrambleAux R C choice n (k + 1) s2 lb2

def scramble (R C depth : ℕ) (choice : ℕ → ℕ) : List ℕ :=
  scrambleAux R C choice depth 0 (GOAL R C) none

/-- `self._goal_pos` of `RectPuzzle`. -/
def goalPos (C t : ℕ) : ℕ × ℕ := ((t - 1) / C, (t - 1) % C)

/-- `RectPuzzle.manhattan`. -/
def manhattan (C : ℕ) (s : List ℕ) : ℕ :=
  (s.enum.map (fun p =>
    if p.2 = 0 then 0
    else
      Nat.dist (p.1 / C) (goalPos C p.2).1 +
        Nat.dist (p.1 % C) (goalPos C p.2).2)).sum

def rowTiles (C : ℕ) (s : List ℕ) (r : ℕ) : List ℕ :=
  (((s.drop (r * C)).take C).filter
      (fun t => decide (t ≠ 0) && decide ((goalPos C t).1 = r))).map
    (fun t => (goalPos C t).2)

def colTiles (R C : ℕ) (s : List ℕ) (c : ℕ) : List ℕ :=
  (((List.range R).map (fun r => s.getD (c + r * C) 0)).filter
      (fun t => decide (t ≠ 0) && decide ((goalPos C t).2 = c))).map
    (fun t => (goalPos C t).1)

/-- `RectPuzzle.linear_conflict`. -/
def linear_conflict (R C : ℕ) (s : List ℕ) : ℕ :=
  manhattan C s +
    (((List.range R).map (fun r => lcPairs (rowTiles C s r))).sum +
      ((List.range C).map (fun c => lcPairs (colTiles R C s c))).sum)

end RectPuzzle

namespace NPuzzle

/-- `NPuzzle(n)` of `puzzlen.py`; the same construction as `RectPuzzle` with
`rows = cols = n`, kept as its own definitions mirroring the source file. -/
def GOAL (n : ℕ) : List ℕ :=
  (List.range (n * n - 1)).map (· + 1) ++ [0]

def nei (n i : ℕ) : List ℕ :=
  (if i / n > 0 then [i - n] else []) ++
    (if i / n < n - 1 then [i + n] else []) ++
      (if i % n > 0 then [i - 1] else []) ++
        (if i % n < n - 1 then [i + 1] else [])

def neighbors (n : ℕ) (s : List ℕ) : List (List ℕ × ℕ) :=
  let z := s.indexOf 0
  (nei n z).map (fun j => (listSwap s z j, 1))

/-- `NPuzzle.is_solvable`: odd `n` needs even inversions; even `n` needs
`inversions + blank_row_from_bottom` odd. -/
def is_solvable (n : ℕ) (s : List ℕ) : Bool :=
  let inv := inversions (s.filter (fun x => decide (x ≠ 0)))
  if n % 2 = 1 then inv % 2 == 0
  else (inv + (n - s.indexOf 0 / n)) % 2 == 1

def scrambleStep (n : ℕ) (s : List ℕ) (lastBlank : Option ℕ) (pick : ℕ) :
    List ℕ × Option ℕ :=
  let z := s.indexOf 0
  let cand₀ := nei n z
  let cand := match lastBlank with
    | some lb => if lb ∈ cand₀ ∧ cand₀.length > 1 then cand₀.erase lb else cand₀
    | none => cand₀
  let j := cand.getD (pick % cand.length) 0
  (listSwap s z j, some z)

def scrambleAux (n : ℕ) (choice : ℕ → ℕ) :
    ℕ → ℕ → List ℕ → Option ℕ → List ℕ
  | 0, _, s, _ => s
  | m + 1, k, s, lb =>
    let (s2, lb2) := scrambleStep n s lb (choice k)
    scrambleAux n choice m (k + 1) s2 lb2

def scramble (n depth : ℕ) (choice : ℕ → ℕ) : List ℕ :=
  scrambleAux n choice depth 0 (GOAL n) none

end NPuzzle

/-! ## The instrumentation records and the four search algorithms -/

inductive Termination where
  | ok
  | timeout
  | exhausted
deriving DecidableEq, Repr

/-- The dict returned by `a_star` (`src/search/a_star.py`); the wall-clock
`time` entry is abstracted away. -/
structure AStarRec (α : Type) where
  path : Option (List α)
  g : Option ℕ
  expanded : ℕ
  generated : ℕ
  duplicates : ℕ
  peak_open : ℕ
  peak_closed : ℕ
  algorithm : String
  tie_break : String
  termination : Termination
deriving DecidableEq, Repr

/-- The dict returned by `ida_star` (`src/search/ida_star.py`). -/
structure IdaRec (α : Type) where
  path : Option (List α)
  g : Option ℕ
  expanded : ℕ
  generated : ℕ
  duplicates : ℕ
  peak_recursion : ℕ
  bound_final : ℕ
  algorithm : String
  termination : Termination
deriving DecidableEq, Repr

/-- The dict returned by `bfs` (`src/search/bfs.py`); note it has no
`duplicates` entry. -/
structure BfsRec (α : Type) where
  path : Option (List α)
  g : Option ℕ
  expanded : ℕ
  generated : ℕ
  algorithm : String
  termination : Termination
deriving DecidableEq, Repr

/-- The dict returned by `dfs` (`src/search/dfs.py`); `bound_final` is
`max_depth` when given and the empty string otherwise. -/
structure DfsRec (α : Type) where
  path : Option (List α)
  g : Option ℕ
  expanded : ℕ
  generated : ℕ
  duplicates : ℕ
  peak_recursion : ℕ
  bound_final : Option ℕ
  algorithm : String
  termination : Termination
deriving DecidableEq, Repr

/-- The literal key set of every dict literal returned by `a_star`. -/
def aStarKeys : List String :=
  ["path", "g", "expanded", "generated", "duplicates", "peak_open",
    "peak_closed", "time", "algorithm", "tie_break", "termination"]

/-- The literal key set of every dict literal returned by `ida_star`. -/
def idaStarKeys : List String :=
  ["path", "g", "expanded", "generated", "duplicates", "peak_recursion",
    "bound_final", "time", "algorithm", "termination"]

/-- The literal key set of every dict literal returned by `bfs`. -/
def bfsKeys : List String :=
  ["path", "g", "expanded", "generated", "time", "algorithm", "termination"]

/-- The literal key set of every dict literal returned by `dfs`. -/
def dfsKeys : List String :=
  ["path", "g", "expanded", "generated", "duplicates", "peak_recursion",
    "bound_final", "time", "algorithm", "termination"]

/-! ### a_star -/

/-- `PQItem` of `a_star.py`: a frontier node with its parent back-reference
(`parent: Optional[PQItem]` rendered as two constructors). -/
inductive PQItem (α : Type) where
  | root (f h g : ℕ) (state : α)
  | node (f h g : ℕ) (state : α) (parent : PQItem α)
deriving DecidableEq, Repr

def PQItem.state {α : Type} : PQItem α → α
  | .root _ _ _ s => s
  | .node _ _ _ s _ => s

def PQItem.g {α : Type} : PQItem α → ℕ
  | .root _ _ g _ => g
  | .node _ _ g _ _ => g

def PQItem.f {α : Type} : PQItem α → ℕ
  | .root f _ _ _ => f
  | .node f _ _ _ _ => f

def PQItem.hval {α : Type} : PQItem α → ℕ
  | .root _ h _ _ => h
  | .node _ h _ _ _ => h

/-- `reconstruct_path` of `a_star.py`: walk the parent chain and reverse. -/
def reconstructPathA {α : Type} : PQItem α → List α
  | .root _ _ _ s => [s]
  | .node _ _ _ s p => reconstructPathA p ++ [s]

/-- `priority_tuple` of `a_star.py`. -/
def prioTuple (tie : String) (f g h ctr : ℕ) : Int × Int × Int :=
  if tie = "h" then ((f : Int), (h : Int), (ctr : Int))
  else if tie = "g" then ((f : Int), -(g : Int), (ctr : Int))
  else if tie = "fifo" then ((f : Int), 0, (ctr : Int))
  else if tie = "lifo" then ((f : Int), 0, -(ctr : Int))
  else ((f : Int), (h : Int), (ctr : Int))

/-- One entry of the `open_heap` list: priority tuple, unique push counter,
item.  Python's `heapq` pops the least element in the lexicographic order of
these tuples (the push counter is unique, so the `PQItem` is never compared). -/
structure HeapEntry (α : Type) where
  pri : Int × Int × Int
  ctr2 : ℕ
  item : PQItem α
deriving DecidableEq, Repr

/-- Lexicographic comparison on `(pri, ctr2)` deciding which heap entry pops
first. -/
def entryLe {α : Type} (e₁ e₂ : HeapEntry α) : Bool :=
  if e₁.pri = e₂.pri then e₁.ctr2 ≤ e₂.ctr2
  else if e₁.pri.1 = e₂.pri.1 then
    if e₁.pri.2.1 = e₂.pri.2.1 then e₁.pri.2.2 ≤ e₂.pri.2.2
    else e₁.pri.2.1 ≤ e₂.pri.2.1
  else e₁.pri.1 ≤ e₂.pri.1

/-- Extract the least heap entry (what `heapq.heappop` returns). -/
def popMin {α : Type} : List (HeapEntry α) → Option (HeapEntry α × List (HeapEntry α))
  | [] => none
  | e :: es =>
    match popMin es with
    | none => some (e, [])
    | some (m, rest) =>
      if entryLe e m then some (e, es) else some (m, e :: rest)

/-- Association-list lookup standing for a Python dict access
(`d.get(k)`); insertion is at the front, so the latest binding wins. -/
def alookup {α β : Type} [DecidableEq α] (l : List (α × β)) (s : α) : Option β :=
  (l.find? (fun p => decide (p.1 = s))).map (·.2)

/-- The mutable state of the `a_star` main loop. -/
structure AStarState (α : Type) where
  openH : List (HeapEntry α)
  best : List (α × ℕ)
  closed : List α
  expanded : ℕ
  generated : ℕ
  duplicates : ℕ
  seenEver : List α
  peakOpen : ℕ
  peakClosed : ℕ
  ctr : ℕ
  tchk : ℕ

/-- Build the record `a_star` returns in a terminal case. -/
def aStarRecOf {α : Type} (st : AStarState α) (tie : String)
    (path : Option (List α)) (g : Option ℕ) (term : Termination) : AStarRec α :=
  { path := path, g := g, expanded := st.expanded, generated := st.generated,
    duplicates := st.duplicates, peak_open := st.peakOpen,
    peak_closed := st.peakClosed, algorithm := "A*", tie_break := tie,
    termination := term }

/-- The neighbor loop of `a_star`: examine each `(s2, c)`, count
`generated`/`duplicates`, and push strictly improving rediscoveries. -/
def aStarChildren {α : Type} [DecidableEq α] (hfun : α → ℕ) (tie : String)
    (node : PQItem α) : List (α × ℕ) → AStarState α → AStarState α
  | [], st => st
  | (s2, c) :: rest, st =>
    let g2 := node.g + c
    let h2 := hfun s2
    let f2 := g2 + h2
    let st := { st with generated := st.generated + 1 }
    let st :=
      if s2 ∈ st.seenEver then { st with duplicates := st.duplicates + 1 }
      else { st with seenEver := s2 :: st.seenEver }
    let st :=
      if (match alookup st.best s2 with
          | none => true
          | some b => decide (g2 < b)) then
        let child : PQItem α := .node f2 h2 g2 s2 node
        let pr := prioTuple tie f2 g2 h2 st.ctr
        { st with
          best := (s2, g2) :: st.best
          openH := st.openH ++ [⟨pr, st.ctr + 1, child⟩]
          ctr := st.ctr + 2 }
      else st
    aStarChildren hfun tie node rest st

/-- The `a_star` main loop, fuel-indexed; `none` means the fuel ran out. -/
def aStarLoop {α : Type} [DecidableEq α] (goal : α) (hfun : α → ℕ)
    (neighbors : α → List (α × ℕ)) (tie : String) (return_path : Bool)
    (tOracle : ℕ → Bool) : ℕ → AStarState α → Option (AStarRec α)
  | 0, _ => none
  | fuel + 1, st =>
    match st.openH with
    | [] => some (aStarRecOf st tie none none .exhausted)
    | _ :: _ =>
      if tOracle st.tchk then
        some (aStarRecOf { st with tchk := st.tchk + 1 } tie none none .timeout)
      else
        let st := { st with
          tchk := st.tchk + 1
          peakOpen := max st.peakOpen st.openH.length }
        match popMin st.openH with
        | none => none
        | some (e, rest) =>
          let st := { st with openH := rest }
          let node := e.item
          if node.state ∈ st.closed then
            aStarLoop goal hfun neighbors tie return_path tOracle fuel st
          else if node.state = goal then
            some (aStarRecOf st tie
              (if return_path then some (reconstructPathA node) else none)
              (some node.g) .ok)
          else
            let st := { st with
              closed := node.state :: st.closed
              expanded := st.expanded + 1 }
            let st := { st with peakClosed := max st.peakClosed st.closed.length }
            let st := aStarChildren hfun tie node (neighbors node.state) st
            aStarLoop goal hfun neighbors tie return_path tOracle fuel st

/-- `a_star` of `a_star.py`, fuel-indexed. -/
def aStar {α : Type} [DecidableEq α] (start goal : α) (hfun : α → ℕ)
    (neighbors : α → List (α × ℕ)) (tie : String := "h")
    (return_path : Bool := true) (tOracle : ℕ → Bool := fun _ => false)
    (fuel : ℕ := 1000000) : Option (AStarRec α) :=
  let h0 := hfun start
  let startItem : PQItem α := .root h0 h0 0 start
  let st : AStarState α :=
    { openH := [⟨prioTuple tie h0 0 h0 0, 1, startItem⟩],
      best := [(start, 0)], closed := [], expanded := 0, generated := 0,
      duplicates := 0, seenEver := [start], peakOpen := 1, peakClosed := 0,
      ctr := 2, tchk := 0 }
  aStarLoop goal hfun neighbors tie return_path tOracle fuel st

/-! ### ida_star -/

/-- The three-way return of the depth-first step of `ida_star`: the `TIMEOUT`
sentinel, `-1` for "goal found", or a numeric next-bound candidate
(`val none` renders `math.inf`).  `fuelOut` marks exhausted fuel of the
embedding and corresponds to no behaviour of the source. -/
inductive DfsRes where
  | tout
  | found
  | val (v : Option ℕ)
  | fuelOut
deriving DecidableEq, Repr

/-- The nonlocal mutable state of `ida_star`. -/
structure IdaState (α : Type) where
  expanded : ℕ
  generated : ℕ
  duplicates : ℕ
  everSeen : List α
  parents : List (α × Option α)
  maxDepth : ℕ
  solutionG : Option ℕ
  tchk : ℕ

/-- Minimum update `if t < min_next: min_next = t` with `none` as infinity. -/
def minOpt (mn : Option ℕ) (t : Option ℕ) : Option ℕ :=
  match t with
  | none => mn
  | some tv =>
    match mn with
    | none => some tv
    | some m => if tv < m then some tv else some m

mutual

/-- `dfs` of `ida_star.py` (the depth-first step, with optional BPMX). -/
def idaDfs {α : Type} [DecidableEq α] (goal : α) (hfun : α → ℕ)
    (neighbors : α → List (α × ℕ)) (use_bpmx : Bool) (tOracle : ℕ → Bool) :
    ℕ → α → ℕ → ℕ → ℕ → ℕ → List α → IdaState α → DfsRes × IdaState α
  | 0, _, _, _, _, _, _, st => (.fuelOut, st)
  | fuel + 1, state, g, bound, h_s, depth, pathset, st =>
    if tOracle st.tchk then (.tout, { st with tchk := st.tchk + 1 })
    else
      let st := { st with
        tchk := st.tchk + 1
        maxDepth := max st.maxDepth depth }
      if g + h_s > bound then (.val (some (g + h_s)), st)
      else if state = goal then (.found, { st with solutionG := some g })
      else
        let st := { st with expanded := st.expanded + 1 }
        idaChildren goal hfun neighbors use_bpmx tOracle fuel state g bound
          pathset (neighbors state) h_s none depth st

/-- The child loop of `dfs`, threading the raisable parent heuristic
`h_parent` and the running minimum `min_next`. -/
def idaChildren {α : Type} [DecidableEq α] (goal : α) (hfun : α → ℕ)
    (neighbors : α → List (α × ℕ)) (use_bpmx : Bool) (tOracle : ℕ → Bool) :
    ℕ → α → ℕ → ℕ → List α → List (α × ℕ) → ℕ → Option ℕ → ℕ → IdaState α →
      DfsRes × IdaState α
  | _, _, _, _, _, [], _, mn, _, st => (.val mn, st)
  | fuel, state, g, bound, pathset, (s2, c) :: rest, h_parent, mn, depth, st =>
    if s2 ∈ pathset then
      idaChildren goal hfun neighbors use_bpmx tOracle fuel state g bound
        pathset rest h_parent mn depth st
    else
      let g2 := g + c
      let h2raw := hfun s2
      let hp' := if use_bpmx ∧ h2raw - c > h_parent then h2raw - c else h_parent
      if use_bpmx ∧ h2raw - c > h_parent ∧ g + hp' > bound then
        (.val (some (g + hp')), st)
      else
        let h2 := if use_bpmx then max h2raw (hp' - c) else h2raw
        let st := { st with generated := st.generated + 1 }
        let st :=
          if s2 ∈ st.everSeen then { st with duplicates := st.duplicates + 1 }
          else { st with everSeen := s2 :: st.everSeen }
        let st := { st with parents := (s2, some state) :: st.parents }
        match idaDfs goal hfun neighbors use_bpmx tOracle fuel s2 g2 bound h2
            (depth + 1) (s2 :: pathset) st with
        | (.tout, st) => (.tout, st)
        | (.found, st) => (.found, st)
        | (.fuelOut, st) => (.fuelOut, st)
        | (.val v, st) =>
          idaChildren goal hfun neighbors use_bpmx tOracle fuel state g bound
            pathset rest hp' (minOpt mn v) depth st

end

/-- `reconstruct_path` of `ida_star.py`: follow the parent map from the goal
(fuel-bounded walk of the chain), then reverse. -/
def reconstructIda {α : Type} [DecidableEq α] (parents : List (α × Option α)) :
    ℕ → α → List α
  | 0, s => [s]
  | fuel + 1, s =>
    match (alookup parents s).join with
    | none => [s]
    | some p => reconstructIda parents fuel p ++ [s]

/-- Build the record `ida_star` returns in a terminal case. -/
def idaRecOf {α : Type} (st : IdaState α) (use_bpmx : Bool) (bound : ℕ)
    (path : Option (List α)) (g : Option ℕ) (term : Termination) : IdaRec α :=
  { path := path, g := g, expanded := st.expanded, generated := st.generated,
    duplicates := st.duplicates, peak_recursion := st.maxDepth,
    bound_final := bound,
    algorithm := if use_bpmx then "IDA* (BPMX ON)" else "IDA*",
    termination := term }

/-- The outer deepening loop of `ida_star`. -/
def idaLoop {α : Type} [DecidableEq α] (start goal : α) (hfun : α → ℕ)
    (neighbors : α → List (α × ℕ)) (use_bpmx : Bool) (return_path : Bool)
    (tOracle : ℕ → Bool) (h0 : ℕ) (dfsFuel : ℕ) :
    ℕ → ℕ → IdaState α → Option (IdaRec α)
  | 0, _, _ => none
  | fuelOuter + 1, bound, st =>
    match idaDfs goal hfun neighbors use_bpmx tOracle dfsFuel start 0 bound h0
        0 [start] st with
    | (.fuelOut, _) => none
    | (.tout, st) => some (idaRecOf st use_bpmx bound none none .timeout)
    | (.found, st) =>
      some (idaRecOf st use_bpmx bound
        (if return_path then
          some (reconstructIda st.parents st.parents.length goal)
        else none)
        st.solutionG .ok)
    | (.val none, st) => some (idaRecOf st use_bpmx bound none none .exhausted)
    | (.val (some t), st) =>
      idaLoop start goal hfun neighbors use_bpmx return_path tOracle h0 dfsFuel
        fuelOuter t st

/-- `ida_star` of `ida_star.py`, fuel-indexed. -/
def idaStar {α : Type} [DecidableEq α] (start goal : α) (hfun : α → ℕ)
    (neighbors : α → List (α × ℕ)) (use_bpmx : Bool := false)
    (return_path : Bool := true) (tOracle : ℕ → Bool := fun _ => false)
    (fuelOuter : ℕ := 1000) (dfsFuel : ℕ := 1000000) : Option (IdaRec α) :=
  let h0 := hfun start
  let st : IdaState α :=
    { expanded := 0, generated := 0, duplicates := 0, everSeen := [start],
      parents := [(start, none)], maxDepth := 0, solutionG := none, tchk := 0 }
  idaLoop start goal hfun neighbors use_bpmx return_path tOracle h0 dfsFuel
    fuelOuter h0 st

/-! ### bfs -/

structure BfsState (α : Type) where
  q : List α
  parent : List (α × Option α)
  expanded : ℕ
  generated : ℕ
  seen : List α
  peak : ℕ
  tchk : ℕ

def bfsRecOf {α : Type} (st : BfsState α) (path : Option (List α))
    (g : Option ℕ) (term : Termination) : BfsRec α :=
  { path := path, g := g, expanded := st.expanded, generated := st.generated,
    algorithm := "BFS", termination := term }

/-- The reconstruction loop of `bfs`: walk the parent map, counting `g`
(the code then returns `g - 1`). -/
def bfsWalk {α : Type} [DecidableEq α] (parent : List (α × Option α)) :
    ℕ → α → List α × ℕ
  | 0, s => ([s], 1)
  | fuel + 1, s =>
    match (alookup parent s).join with
    | none => ([s], 1)
    | some p =>
      let (l, g) := bfsWalk parent fuel p
      (l ++ [s], g + 1)

/-- The neighbor loop of `bfs`. -/
def bfsChildren {α : Type} [DecidableEq α] (s : α) :
    List (α × ℕ) → BfsState α → BfsState α
  | [], st => st
  | (s2, _) :: rest, st =>
    let st := { st with generated := st.generated + 1 }
    let st :=
      if s2 ∈ st.seen then st
      else { st with
        seen := s2 :: st.seen
        parent := (s2, some s) :: st.parent
        q := st.q ++ [s2] }
    bfsChildren s rest st

/-- The `bfs` main loop, fuel-indexed. -/
def bfsLoop {α : Type} [DecidableEq α] (goal : α)
    (neighbors : α → List (α × ℕ)) (tOracle : ℕ → Bool) :
    ℕ → BfsState α → Option (BfsRec α)
  | 0, _ => none
  | fuel + 1, st =>
    match st.q with
    | [] => some (bfsRecOf st none none .exhausted)
    | s :: qrest =>
      if tOracle st.tchk then
        some (bfsRecOf { st with tchk := st.tchk + 1 } none none .timeout)
      else
        let st := { st with
          tchk := st.tchk + 1
          peak := max st.peak st.q.length
          q := qrest }
        if s = goal then
          let (l, g) := bfsWalk st.parent st.parent.length s
          some (bfsRecOf st (some l) (some (g - 1)) .ok)
        else
          let st := { st with expanded := st.expanded + 1 }
          let st := bfsChildren s (neighbors s) st
          bfsLoop goal neighbors tOracle fuel st

/-- `bfs` of `bfs.py`, fuel-indexed. -/
def bfs {α : Type} [DecidableEq α] (start goal : α)
    (neighbors : α → List (α × ℕ)) (tOracle : ℕ → Bool := fun _ => false)
    (fuel : ℕ := 1000000) : Option (BfsRec α) :=
  let st : BfsState α :=
    { q := [start], parent := [(start, none)], expanded := 0, generated := 0,
      seen := [start], peak := 1, tchk := 0 }
  bfsLoop goal neighbors tOracle fuel st

/-! ### dfs -/

/-- One explicit-stack frame of `dfs`: state, depth, the not yet consumed
suffix of its neighbor iterator, and the expanded flag. -/
structure DfsFrame (α : Type) where
  state : α
  depth : ℕ
  it : List (α × ℕ)
  didExpand : Bool

structure DfsState (α : Type) where
  stack : List (DfsFrame α)
  onPath : List α
  expanded : ℕ
  generated : ℕ
  duplicates : ℕ
  peakDepth : ℕ
  tchk : ℕ

def dfsRecOf {α : Type} (st : DfsState α) (max_depth : Option ℕ)
    (g : Option ℕ) (term : Termination) : DfsRec α :=
  { path := none, g := g, expanded := st.expanded, generated := st.generated,
    duplicates := st.duplicates, peak_recursion := st.peakDepth,
    bound_final := max_depth, algorithm := "DFS", termination := term }

/-- The `dfs` main loop, fuel-indexed.  The top of the stack is the head of
`st.stack`. -/
def dfsLoop {α : Type} [DecidableEq α] (goal : α)
    (neighbors : α → List (α × ℕ)) (max_depth : Option ℕ)
    (tOracle : ℕ → Bool) : ℕ → DfsState α → Option (DfsRec α)
  | 0, _ => none
  | fuel + 1, st =>
    match st.stack with
    | [] => some (dfsRecOf st max_depth none .exhausted)
    | fr :: frRest =>
      if tOracle st.tchk then
        some (dfsRecOf { st with tchk := st.tchk + 1 } max_depth none .timeout)
      else
        let st := { st with
          tchk := st.tchk + 1
          peakDepth := max st.peakDepth fr.depth }
        match fr.it with
        | [] =>
          let st := { st with
            onPath := st.onPath.erase fr.state
            stack := frRest }
          dfsLoop goal neighbors max_depth tOracle fuel st
        | (s2, _) :: it' =>
          let st := { st with stack := { fr with it := it' } :: frRest }
          if (match max_depth with
              | some md => decide (fr.depth + 1 > md)
              | none => false) then
            dfsLoop goal neighbors max_depth tOracle fuel st
          else if s2 ∈ st.onPath then
            dfsLoop goal neighbors max_depth tOracle fuel
              { st with duplicates := st.duplicates + 1 }
          else
            let st :=
              if fr.didExpand then st
              else
                { st with
                  expanded := st.expanded + 1
                  stack := { fr with it := it', didExpand := true } :: frRest }
            let st := { st with generated := st.generated + 1 }
            if s2 = goal then
              some (dfsRecOf st max_depth (some (fr.depth + 1)) .ok)
            else
              let st := { st with
                onPath := s2 :: st.onPath
                stack := ⟨s2, fr.depth + 1, neighbors s2, false⟩ :: st.stack }
              dfsLoop goal neighbors max_depth tOracle fuel st

/-- `dfs` of `dfs.py`, fuel-indexed. -/
def dfs {α : Type} [DecidableEq α] (start goal : α)
    (neighbors : α → List (α × ℕ)) (max_depth : Option ℕ := none)
    (tOracle : ℕ → Bool := fun _ => false) (fuel : ℕ := 1000000) :
    Option (DfsRec α) :=
  let st : DfsState α :=
    { stack := [⟨start, 0, neighbors start, false⟩], onPath := [start],
      expanded := 0, generated := 0, duplicates := 0, peakDepth := 0,
      tchk := 0 }
  if start = goal then
    some
      { path := none, g := some 0, expanded := 0, generated := 0,
        duplicates := 0, peak_recursion := 0, bound_final := max_depth,
        algorithm := "DFS", termination := .ok }
  else dfsLoop goal neighbors max_depth tOracle fuel st

/-! ## Graph-theoretic notions used by the specification claims -/

/-- `t` is a successor of `s` under the supplied neighbor function. -/
def isStepB {α : Type} [DecidableEq α] (neighbors : α → List (α × ℕ))
    (s t : α) : Bool :=
  (neighbors s).any (fun p => decide (p.1 = t))

/-- `chainB nb s l b`: starting at `s`, the states of `l` are consecutive
successors, and the walk ends at `b` (at `s` itself when `l` is empty). -/
def chainB {α : Type} [DecidableEq α] (neighbors : α → List (α × ℕ)) :
    α → List α → α → Bool
  | s, [], b => decide (s = b)
  | s, t :: rest, b => isStepB neighbors s t && chainB neighbors t rest b

/-- `l` is a path from `a` to `b`: nonempty, starts at `a`, ends at `b`, and
consecutive states are connected.  Its cost under unit edges is
`l.length - 1`. -/
def isPathB {α : Type} [DecidableEq α] (neighbors : α → List (α × ℕ))
    (a b : α) : List α → Bool
  | [] => false
  | x :: rest => decide (x = a) && chainB neighbors x rest b

/-- `n` is the optimal unit cost from `a` to `b`. -/
def IsShortest {α : Type} [DecidableEq α] (neighbors : α → List (α × ℕ))
    (a b : α) (n : ℕ) : Prop :=
  (∃ l, isPathB neighbors a b l = true ∧ l.length = n + 1) ∧
    ∀ l, isPathB neighbors a b l = true → n + 1 ≤ l.length

/-- All edges have unit cost. -/
def UnitCost {α : Type} (neighbors : α → List (α × ℕ)) : Prop :=
  ∀ s p, p ∈ neighbors s → p.2 = 1

/-- Consistency of a heuristic along the edges of the graph. -/
def Consistent {α : Type} (neighbors : α → List (α × ℕ)) (h : α → ℕ) : Prop :=
  ∀ s p, p ∈ neighbors s → h s ≤ p.2 + h p.1

/-- Admissibility, phrased over explicit paths: `h a` never exceeds the unit
cost of any path from `a` to the goal. -/
def Admissible {α : Type} [DecidableEq α] (neighbors : α → List (α × ℕ))
    (goal : α) (h : α → ℕ) : Prop :=
  ∀ a l, isPathB neighbors a goal l = true → h a ≤ l.length - 1

/-- A finite list of states closed under the neighbor function; used to bound
search loops. -/
def ClosedUnder {α : Type} (neighbors : α → List (α × ℕ)) (S : List α) : Prop :=
  ∀ s ∈ S, ∀ p ∈ neighbors s, p.1 ∈ S

/-! ## Concrete instances used by counterexamples and witnesses -/

/-- The detour corridor of the best-first suboptimality counterexample on the
2x3 board: these states get heuristic value 0. -/
def gadgetQ : List (List ℕ) :=
  [[5, 4, 2, 0, 1, 3], [0, 4, 2, 5, 1, 3], [4, 0, 2, 5, 1, 3],
    [4, 1, 2, 5, 0, 3], [4, 1, 2, 0, 5, 3], [0, 1, 2, 4, 5, 3],
    [1, 0, 2, 4, 5, 3]]

/-- An admissible but inconsistent heuristic on the 2x3 board: 0 on the
detour corridor, Manhattan distance elsewhere. -/
def gadgetH (s : List ℕ) : ℕ :=
  if s ∈ gadgetQ then 0 else RectPuzzle.manhattan 3 s

/-- The start state of the suboptimality counterexample (true cost 7). -/
def gadgetStart : List ℕ := [5, 4, 2, 1, 0, 3]

/-- A cost-7 solution of `gadgetStart` on the 2x3 board. -/
def gadgetPath : List (List ℕ) :=
  [[5, 4, 2, 1, 0, 3], [5, 0, 2, 1, 4, 3], [0, 5, 2, 1, 4, 3],
    [1, 5, 2, 0, 4, 3], [1, 5, 2, 4, 0, 3], [1, 0, 2, 4, 5, 3],
    [1, 2, 0, 4, 5, 3], [1, 2, 3, 4, 5, 0]]

/-- The lc-inadmissible state: `linear_conflict` is 28 but the true cost is 26. -/
def lcBad : List ℕ := [8, 7, 0, 6, 5, 4, 3, 2, 1]

/-- An optimal (26-move) solution of `lcBad`. -/
def lcBadPath : List (List ℕ) :=
  [[8, 7, 0, 6, 5, 4, 3, 2, 1], [8, 7, 4, 6, 5, 0, 3, 2, 1],
    [8, 7, 4, 6, 5, 1, 3, 2, 0], [8, 7, 4, 6, 5, 1, 3, 0, 2],
    [8, 7, 4, 6, 5, 1, 0, 3, 2], [8, 7, 4, 0, 5, 1, 6, 3, 2],
    [0, 7, 4, 8, 5, 1, 6, 3, 2], [7, 0, 4, 8, 5, 1, 6, 3, 2],
    [7, 4, 0, 8, 5, 1, 6, 3, 2], [7, 4, 1, 8, 5, 0, 6, 3, 2],
    [7, 4, 1, 8, 5, 2, 6, 3, 0], [7, 4, 1, 8, 5, 2, 6, 0, 3],
    [7, 4, 1, 8, 5, 2, 0, 6, 3], [7, 4, 1, 0, 5, 2, 8, 6, 3],
    [0, 4, 1, 7, 5, 2, 8, 6, 3], [4, 0, 1, 7, 5, 2, 8, 6, 3],
    [4, 1, 0, 7, 5, 2, 8, 6, 3], [4, 1, 2, 7, 5, 0, 8, 6, 3],
    [4, 1, 2, 7, 5, 3, 8, 6, 0], [4, 1, 2, 7, 5, 3, 8, 0, 6],
    [4, 1, 2, 7, 5, 3, 0, 8, 6], [4, 1, 2, 0, 5, 3, 7, 8, 6],
    [0, 1, 2, 4, 5, 3, 7, 8, 6], [1, 0, 2, 4, 5, 3, 7, 8, 6],
    [1, 2, 0, 4, 5, 3, 7, 8, 6], [1, 2, 3, 4, 5, 0, 7, 8, 6],
    [1, 2, 3, 4, 5, 6, 7, 8, 0]]

/-- A state witnessing that `linear_conflict` is inconsistent: its successor
below has value 8 while the state itself has 11 > 1 + 8. -/
def lcConsS : List ℕ := [3, 1, 2, 0, 5, 6, 4, 7, 8]

def lcConsT : List ℕ := [0, 1, 2, 3, 5, 6, 4, 7, 8]

/-- The start state of the BPMX counter anomaly: `linear_conflict` is 8 here
but 11 at the first generated child, so with BPMX the first iteration cuts
off before generating anything. -/
def bpmxStart : List ℕ := [0, 7, 2, 1, 5, 3, 4, 8, 6]

/-- A depth-6 instance for the bounded depth-first scenario. -/
def c9Start : List ℕ := [4, 1, 2, 5, 0, 3, 7, 8, 6]

/-- A depth-6 solution of `c9Start` (so its true cost is at most 6; the
minimality side is established by running breadth-first search). -/
def c9Path : List (List ℕ) :=
  [[4, 1, 2, 5, 0, 3, 7, 8, 6], [4, 1, 2, 0, 5, 3, 7, 8, 6],
    [0, 1, 2, 4, 5, 3, 7, 8, 6], [1, 0, 2, 4, 5, 3, 7, 8, 6],
    [1, 2, 0, 4, 5, 3, 7, 8, 6], [1, 2, 3, 4, 5, 0, 7, 8, 6],
    [1, 2, 3, 4, 5, 6, 7, 8, 0]]

/-- The end state of a walk that starts at `s` and passes through `l`. -/
def endOf {α : Type} : α → List α → α
  | s, [] => s
  | _, t :: rest => endOf t rest

/-- One breadth step of bounded reachability: a list together with all
successors of its members. -/
def ballStep {α : Type} (nb : α → List (α × ℕ)) (S : List α) : List α :=
  S ++ S.flatMap (fun s => (nb s).map (·.1))

/-- Iterated breadth steps from a seed list. -/
def ballIter {α : Type} (nb : α → List (α × ℕ)) (S : List α) : ℕ → List α
  | 0 => S
  | k + 1 => ballStep nb (ballIter nb S k)

/-- All states reachable from `a` in at most `k` moves are members. -/
def ball {α : Type} (nb : α → List (α × ℕ)) (a : α) (k : ℕ) : List α :=
  ballIter nb [a] k

/-- Well-formedness of the `dfs` stack: bottom frame is the start at depth
0, and each frame above is a successor of the one below at depth one more. -/
def stackOk {α : Type} [DecidableEq α] (nb : α → List (α × ℕ)) (start : α) :
    List (DfsFrame α) → Prop
  | [] => True
  | [fr] => fr.state = start ∧ fr.depth = 0
  | fr :: fr2 :: rest =>
    isStepB nb fr2.state fr.state = true ∧ fr.depth = fr2.depth + 1 ∧
      stackOk nb start (fr2 :: rest)

/-- Every pending neighbor entry of every frame is a real neighbor entry of
the frame state. -/
def framesIt {α : Type} (nb : α → List (α × ℕ)) (stk : List (DfsFrame α)) :
    Prop :=
  ∀ fr ∈ stk, ∀ p ∈ fr.it, p ∈ nb fr.state

/-- Work bound for a `dfs` subtree with branching `B` and `k` remaining
depth levels. -/
def dfsT (B : ℕ) : ℕ → ℕ
  | 0 => 1
  | k + 1 => 2 + B * dfsT B k

/-- Work bound for one stack frame of a `max_depth = md` run. -/
def frameW {α : Type} (B md : ℕ) (fr : DfsFrame α) : ℕ :=
  fr.it.length * dfsT B (md - fr.depth) + 1

/-- Termination measure of the `dfs` loop. -/
def dfsMeasure {α : Type} (B md : ℕ) (st : DfsState α) : ℕ :=
  (st.stack.map (frameW B md)).sum

/-- One position's contribution to a Manhattan-style sum: index `i` holding
tile `t`, goal cell given by `gp`. -/
def mterm (C : ℕ) (gp : ℕ → ℕ × ℕ) (i t : ℕ) : ℕ :=
  if t = 0 then 0 else Nat.dist (i / C) (gp t).1 + Nat.dist (i % C) (gp t).2

/-- Manhattan-style sum over a board suffix whose first cell has index `k`. -/
def gmAux (C : ℕ) (gp : ℕ → ℕ × ℕ) : ℕ → List ℕ → ℕ
  | _, [] => 0
  | k, t :: rest => mterm C gp k t + gmAux C gp (k + 1) rest

/-- A 13-move path from the goal to `lcConsS`, witnessing that it is
reachable. -/
def lcConsPath : List (List ℕ) :=
  [[1, 2, 3, 4, 5, 6, 7, 8, 0], [1, 2, 3, 4, 5, 0, 7, 8, 6],
    [1, 2, 0, 4, 5, 3, 7, 8, 6], [1, 0, 2, 4, 5, 3, 7, 8, 6],
    [1, 5, 2, 4, 0, 3, 7, 8, 6], [1, 5, 2, 4, 3, 0, 7, 8, 6],
    [1, 5, 2, 4, 3, 6, 7, 8, 0], [1, 5, 2, 4, 3, 6, 7, 0, 8],
    [1, 5, 2, 4, 3, 6, 0, 7, 8], [1, 5, 2, 0, 3, 6, 4, 7, 8],
    [1, 5, 2, 3, 0, 6, 4, 7, 8], [1, 0, 2, 3, 5, 6, 4, 7, 8],
    [0, 1, 2, 3, 5, 6, 4, 7, 8], [3, 1, 2, 0, 5, 6, 4, 7, 8]]

/-- Cross inversions between two blocks: pairs with the earlier element taken
from `X`, the later from `Y`, and the later strictly smaller. -/
def cross (X Y : List ℕ) : ℕ :=
  (X.map (fun x => Y.countP (fun y => decide (y < x)))).sum

/-- Validity of the back-pointer chain of a `PQItem`: the chain is rooted at
`start` with cost 0, and every link extends a parent by one edge of
`neighbors`, accumulating the edge cost into `g`. -/
def ItemInv {α : Type} (neighbors : α → List (α × ℕ)) (start : α) :
    PQItem α → Prop
  | .root _ _ g s => s = start ∧ g = 0
  | .node _ _ g s p => ItemInv neighbors start p ∧
      ∃ c, (s, c) ∈ neighbors p.state ∧ g = p.g + c

/-- The `parents` map of `ida_star` holds the listed chain as back-pointers:
the chain is given newest-first and bottoms out at `start`, whose recorded
parent is `None`; every link is an edge of `neighbors`. -/
def ParentChain {α : Type} [DecidableEq α] (neighbors : α → List (α × ℕ))
    (start : α) (parents : List (α × Option α)) : List α → Prop
  | [] => False
  | s :: rest =>
    match rest with
    | [] => s = start ∧ alookup parents s = some none
    | p :: _ => alookup parents s = some (some p) ∧
        (∃ c, (s, c) ∈ neighbors p) ∧
        ParentChain neighbors start parents rest

/-- A three-node line graph used as a concrete witness instance. -/
def c5nb : ℕ → List (ℕ × ℕ)
  | 0 => [(1, 1)]
  | 1 => [(0, 1), (2, 1)]
  | 2 => [(1, 1)]
  | _ => []

/-! # Theorems -/

/-- C8 counterexample: the dict returned by `bfs` has no `duplicates` key,
so the four algorithms do not share the full InstrumentationRecord shape. -/
theorem c8_bfs_lacks_duplicates :
    "expanded" ∈ bfsKeys ∧ "generated" ∈ bfsKeys ∧ "duplicates" ∉ bfsKeys := by
  decide

/-- C8 (amended): `a_star`, `ida_star` and `dfs` records carry all three
counters `expanded`, `generated`, `duplicates`; `bfs` records carry
`expanded` and `generated` but no `duplicates` key. -/
theorem c8_record_keys :
    (∀ k ∈ ["expanded", "generated", "duplicates"],
      k ∈ aStarKeys ∧ k ∈ idaStarKeys ∧ k ∈ dfsKeys) ∧
      "expanded" ∈ bfsKeys ∧ "generated" ∈ bfsKeys ∧ "duplicates" ∉ bfsKeys := by
  decide

/-- C10: when the start equals the goal, each of the four algorithms (run
without timeout) terminates `ok` with cost 0 and zero `expanded`/`generated`
counters. -/
theorem c10_start_eq_goal {α : Type} [DecidableEq α] (s : α) (hfun : α → ℕ)
    (nb : α → List (α × ℕ)) (tie : String) (rp bpmx : Bool)
    (md : Option ℕ) (fa fo fd fb fdf : ℕ) :
    (aStar s s hfun nb tie rp (fun _ => false) (fa + 1)).map
        (fun r => (r.termination, r.g, r.expanded, r.generated)) =
      some (.ok, some 0, 0, 0) ∧
    (idaStar s s hfun nb bpmx rp (fun _ => false) (fo + 1) (fd + 1)).map
        (fun r => (r.termination, r.g, r.expanded, r.generated)) =
      some (.ok, some 0, 0, 0) ∧
    (bfs s s nb (fun _ => false) (fb + 1)).map
        (fun r => (r.termination, r.g, r.expanded, r.generated)) =
      some (.ok, some 0, 0, 0) ∧
    (dfs s s nb md (fun _ => false) fdf).map
        (fun r => (r.termination, r.g, r.expanded, r.generated)) =
      some (.ok, some 0, 0, 0) := by
  refine ⟨?_, ?_, ?_, ?_⟩
  · simp [aStar, aStarLoop, popMin, PQItem.state, PQItem.g, aStarRecOf]
  · simp [idaStar, idaLoop, idaDfs, idaRecOf]
  · simp [bfs, bfsLoop, bfsWalk, bfsRecOf, alookup]
  · simp [dfs]

/-- Helper for C4: every record produced by the `a_star` loop has its cost
present exactly when it terminated `ok`. -/
theorem aStarLoop_g_ok {α : Type} [DecidableEq α] (goal : α) (hfun : α → ℕ)
    (nb : α → List (α × ℕ)) (tie : String) (rp : Bool) (tO : ℕ → Bool) :
    ∀ (fuel : ℕ) (st : AStarState α) (r : AStarRec α),
      aStarLoop goal hfun nb tie rp tO fuel st = some r →
        (r.g ≠ none ↔ r.termination = .ok) := by
  intro fuel
  induction fuel with
  | zero => intro st r h; simp [aStarLoop] at h
  | succ n ih =>
    intro st r h
    rw [aStarLoop] at h
    split at h
    · cases h; simp [aStarRecOf]
    · split at h
      · cases h; simp [aStarRecOf]
      · simp only [] at h
        split at h
        · exact absurd h (by simp)
        · split at h
          · exact ih _ _ h
          · split at h
            · cases h; simp [aStarRecOf]
            · exact ih _ _ h

/-- Helper for C4 (bfs): cost present iff terminated `ok`. -/
theorem bfsLoop_g_ok {α : Type} [DecidableEq α] (goal : α)
    (nb : α → List (α × ℕ)) (tO : ℕ → Bool) :
    ∀ (fuel : ℕ) (st : BfsState α) (r : BfsRec α),
      bfsLoop goal nb tO fuel st = some r →
        (r.g ≠ none ↔ r.termination = .ok) := by
  intro fuel
  induction fuel with
  | zero => intro st r h; simp [bfsLoop] at h
  | succ n ih =>
    intro st r h
    rw [bfsLoop] at h
    simp only [] at h
    repeat' split at h
    all_goals first
      | (cases h; simp [bfsRecOf])
      | (exact ih _ _ h)
      | simp at h

/-- Helper for C4 (dfs): cost present iff terminated `ok`. -/
theorem dfsLoop_g_ok {α : Type} [DecidableEq α] (goal : α)
    (nb : α → List (α × ℕ)) (md : Option ℕ) (tO : ℕ → Bool) :
    ∀ (fuel : ℕ) (st : DfsState α) (r : DfsRec α),
      dfsLoop goal nb md tO fuel st = some r →
        (r.g ≠ none ↔ r.termination = .ok) := by
  intro fuel
  induction fuel with
  | zero => intro st r h; simp [dfsLoop] at h
  | succ n ih =>
    intro st r h
    rw [dfsLoop] at h
    simp only [] at h
    repeat' split at h
    all_goals first
      | (cases h; simp [dfsRecOf])
      | (exact ih _ _ h)
      | simp at h

/-- Helper: a `found` return of the depth-first step always has the solution
cost recorded. -/
theorem idaFound_sol {α : Type} [DecidableEq α] (goal : α) (hfun : α → ℕ)
    (nb : α → List (α × ℕ)) (bpmx : Bool) (tO : ℕ → Bool) :
    ∀ fuel : ℕ,
      (∀ (state : α) (g bound h_s depth : ℕ) (pathset : List α)
        (st st' : IdaState α),
        idaDfs goal hfun nb bpmx tO fuel state g bound h_s depth pathset st =
            (.found, st') →
          st'.solutionG ≠ none) ∧
      (∀ (l : List (α × ℕ)) (state : α) (g bound : ℕ) (pathset : List α)
        (hp : ℕ) (mn : Option ℕ) (depth : ℕ) (st st' : IdaState α),
        idaChildren goal hfun nb bpmx tO fuel state g bound pathset l hp mn
            depth st = (.found, st') →
          st'.solutionG ≠ none) := by
  intro fuel
  induction fuel with
  | zero =>
    have hdfs : ∀ (state : α) (g bound h_s depth : ℕ) (pathset : List α)
        (st st' : IdaState α),
        idaDfs goal hfun nb bpmx tO 0 state g bound h_s depth pathset st =
            (.found, st') → st'.solutionG ≠ none := by
      intro state g bound h_s depth pathset st st' h
      simp [idaDfs] at h
    refine ⟨hdfs, ?_⟩
    intro l
    induction l with
    | nil =>
      intro state g bound pathset hp mn depth st st' h
      simp [idaChildren] at h
    | cons c rest ihl =>
      intro state g bound pathset hp mn depth st st' h
      rw [idaChildren] at h
      split at h
      · exact ihl _ _ _ _ _ _ _ _ _ h
      · simp only [] at h
        repeat' split at h
        all_goals first
          | exact ihl _ _ _ _ _ _ _ _ _ h
          | (cases h; exact hdfs _ _ _ _ _ _ _ _ (by assumption))
          | simp at h
  | succ n ih =>
    have hdfs : ∀ (state : α) (g bound h_s depth : ℕ) (pathset : List α)
        (st st' : IdaState α),
        idaDfs goal hfun nb bpmx tO (n + 1) state g bound h_s depth pathset
            st = (.found, st') → st'.solutionG ≠ none := by
      intro state g bound h_s depth pathset st st' h
      rw [idaDfs] at h
      split at h
      · cases h
      · simp only [] at h
        repeat' split at h
        all_goals first
          | exact ih.2 _ _ _ _ _ _ _ _ _ _ h
          | (cases h; simp)
          | simp at h
    refine ⟨hdfs, ?_⟩
    intro l
    induction l with
    | nil =>
      intro state g bound pathset hp mn depth st st' h
      simp [idaChildren] at h
    | cons c rest ihl =>
      intro state g bound pathset hp mn depth st st' h
      rw [idaChildren] at h
      split at h
      · exact ihl _ _ _ _ _ _ _ _ _ h
      · simp only [] at h
        repeat' split at h
        all_goals first
          | exact ihl _ _ _ _ _ _ _ _ _ h
          | (cases h; exact hdfs _ _ _ _ _ _ _ _ (by assumption))
          | simp at h

/-- Helper for C4 (ida_star): cost present iff terminated `ok`. -/
theorem idaLoop_g_ok {α : Type} [DecidableEq α] (start goal : α)
    (hfun : α → ℕ) (nb : α → List (α × ℕ)) (bpmx rp : Bool) (tO : ℕ → Bool)
    (h0 dfsFuel : ℕ) :
    ∀ (fuelOuter bound : ℕ) (st : IdaState α) (r : IdaRec α),
      idaLoop start goal hfun nb bpmx rp tO h0 dfsFuel fuelOuter bound st =
          some r →
        (r.g ≠ none ↔ r.termination = .ok) := by
  intro fuelOuter
  induction fuelOuter with
  | zero => intro bound st r h; simp [idaLoop] at h
  | succ n ih =>
    intro bound st r h
    rw [idaLoop] at h
    split at h
    · simp at h
    · cases h; simp [idaRecOf]
    · rename_i st' heq
      cases h
      simp only [idaRecOf, ne_eq]
      have := (idaFound_sol goal hfun nb bpmx tO dfsFuel).1 _ _ _ _ _ _ _ _ heq
      simpa using this
    · cases h; simp [idaRecOf]
    · exact ih _ _ _ h

/-- C4: whichever way any of the four algorithms terminates (`ok`,
`timeout` or `exhausted`, any timeout oracle, any fuel), the returned record
has its cost `g` present exactly when the termination is `ok`, and the
counter entries are present in the record shape in every terminal case. -/
theorem c4_g_iff_termination {α : Type} [DecidableEq α] (start goal : α)
    (hfun : α → ℕ) (nb : α → List (α × ℕ)) (tie : String) (rp bpmx : Bool)
    (md : Option ℕ) (tO : ℕ → Bool) (fa fo fd fb fdf : ℕ) :
    (∀ r : AStarRec α, aStar start goal hfun nb tie rp tO fa = some r →
      (r.g ≠ none ↔ r.termination = .ok)) ∧
    (∀ r : IdaRec α, idaStar start goal hfun nb bpmx rp tO fo fd = some r →
      (r.g ≠ none ↔ r.termination = .ok)) ∧
    (∀ r : BfsRec α, bfs start goal nb tO fb = some r →
      (r.g ≠ none ↔ r.termination = .ok)) ∧
    (∀ r : DfsRec α, dfs start goal nb md tO fdf = some r →
      (r.g ≠ none ↔ r.termination = .ok)) ∧
    (∀ k ∈ ["expanded", "generated"],
      k ∈ aStarKeys ∧ k ∈ idaStarKeys ∧ k ∈ bfsKeys ∧ k ∈ dfsKeys) := by
  refine ⟨?_, ?_, ?_, ?_, by decide⟩
  · intro r h
    exact aStarLoop_g_ok goal hfun nb tie rp tO _ _ _ h
  · intro r h
    exact idaLoop_g_ok start goal hfun nb bpmx rp tO _ _ _ _ _ _ h
  · intro r h
    exact bfsLoop_g_ok goal nb tO _ _ _ h
  · intro r h
    rw [dfs] at h
    split at h
    · cases h; simp
    · exact dfsLoop_g_ok goal nb md tO _ _ _ h


/-- The end state of the empty walk. -/
theorem endOf_nil {α : Type} (s : α) : endOf s ([] : List α) = s := rfl

theorem endOf_cons {α : Type} (s t : α) (rest : List α) :
    endOf s (t :: rest) = endOf t rest := rfl

/-- Walks compose with a final edge. -/
theorem chainB_snoc_iff {α : Type} [DecidableEq α] (nb : α → List (α × ℕ)) :
    ∀ (l : List α) (s x b : α),
      chainB nb s (l ++ [x]) b =
        (chainB nb s l (endOf s l) && isStepB nb (endOf s l) x && decide (x = b)) := by
  intro l
  induction l with
  | nil =>
    intro s x b
    simp [chainB, endOf]
  | cons t rest ih =>
    intro s x b
    have h1 : chainB nb s ((t :: rest) ++ [x]) b =
        (isStepB nb s t && chainB nb t (rest ++ [x]) b) := rfl
    have h2 : chainB nb s (t :: rest) (endOf s (t :: rest)) =
        (isStepB nb s t && chainB nb t rest (endOf t rest)) := by
      rw [endOf_cons]; rfl
    rw [h1, h2, ih, endOf_cons]
    cases isStepB nb s t <;> simp

/-- A walk ends at its own end state. -/
theorem chainB_endOf {α : Type} [DecidableEq α] (nb : α → List (α × ℕ)) :
    ∀ (l : List α) (s b : α), chainB nb s l b = true → endOf s l = b := by
  intro l
  induction l with
  | nil => intro s b h; simpa [chainB, endOf] using h
  | cons t rest ih =>
    intro s b h
    simp only [chainB, Bool.and_eq_true] at h
    rw [endOf_cons]
    exact ih t b h.2

theorem isPathB_snoc {α : Type} [DecidableEq α] (nb : α → List (α × ℕ))
    {a b t : α} {l : List α} (hp : isPathB nb a b l = true)
    (hstep : isStepB nb b t = true) : isPathB nb a t (l ++ [t]) = true := by
  cases l with
  | nil => simp [isPathB] at hp
  | cons x rest =>
    simp only [isPathB, Bool.and_eq_true, decide_eq_true_eq] at hp
    obtain ⟨rfl, hchain⟩ := hp
    have hend : endOf x rest = b := chainB_endOf nb rest x b hchain
    have hch : chainB nb x (rest ++ [t]) t = true := by
      rw [chainB_snoc_iff]
      simp [hend, hchain, hstep]
    simp [isPathB, hch]

/-- A seed list is contained in its breadth step. -/
theorem subset_ballStep {α : Type} (nb : α → List (α × ℕ)) (S : List α) :
    S ⊆ ballStep nb S := by
  intro x hx
  simp [ballStep]
  exact Or.inl hx

/-- Iterating from a stepped seed is stepping the iterate. -/
theorem ballIter_step_comm {α : Type} (nb : α → List (α × ℕ)) :
    ∀ (k : ℕ) (S : List α),
      ballIter nb (ballStep nb S) k = ballStep nb (ballIter nb S k) := by
  intro k
  induction k with
  | zero => intro S; rfl
  | succ n ih => intro S; simp [ballIter, ih]

/-- The end of a walk of `k` steps out of `S` lies in the `k`-th breadth
iterate of `S`. -/
theorem chainB_mem_ballIter {α : Type} [DecidableEq α]
    (nb : α → List (α × ℕ)) :
    ∀ (l : List α) (s b : α) (S : List α), s ∈ S → chainB nb s l b = true →
      b ∈ ballIter nb S l.length := by
  intro l
  induction l with
  | nil =>
    intro s b S hs h
    simp only [chainB, decide_eq_true_eq] at h
    subst h
    simpa [ballIter] using hs
  | cons t rest ih =>
    intro s b S hs h
    simp only [chainB, Bool.and_eq_true] at h
    have ht : t ∈ ballStep nb S := by
      simp only [ballStep, List.mem_append, List.mem_flatMap, List.mem_map]
      refine Or.inr ⟨s, hs, ?_⟩
      simp only [isStepB, List.any_eq_true, decide_eq_true_eq] at h
      obtain ⟨p, hp, hpt⟩ := h.1
      exact ⟨p, hp, hpt⟩
    have hmem := ih t b (ballStep nb S) ht h.2
    rw [ballIter_step_comm] at hmem
    simpa [ballIter, List.length_cons] using hmem

/-- Breadth iterates are monotone in the radius. -/
theorem ballIter_mono {α : Type} (nb : α → List (α × ℕ)) (S : List α) :
    ∀ k m : ℕ, k ≤ m → ballIter nb S k ⊆ ballIter nb S m := by
  intro k m hkm
  induction m with
  | zero =>
    cases Nat.le_zero.mp hkm
    exact fun x hx => hx
  | succ n ih =>
    rcases Nat.lt_or_ge k (n + 1) with hlt | hge
    · intro x hx
      exact subset_ballStep nb _ (ih (Nat.lt_succ_iff.mp hlt) hx)
    · cases Nat.le_antisymm hkm hge
      exact fun x hx => hx

/-- If `b` is not within radius `m` of `a`, every path from `a` to `b` costs
more than `m`. -/
theorem no_short_path_of_ball {α : Type} [DecidableEq α]
    (nb : α → List (α × ℕ)) (a b : α) (m : ℕ) (hb : b ∉ ball nb a m) :
    ∀ l : List α, isPathB nb a b l = true → m + 1 < l.length := by
  intro l hl
  cases l with
  | nil => simp [isPathB] at hl
  | cons x rest =>
    simp only [isPathB, Bool.and_eq_true, decide_eq_true_eq] at hl
    obtain ⟨rfl, hchain⟩ := hl
    by_contra hle
    push_neg at hle
    have hmem : b ∈ ballIter nb [x] rest.length :=
      chainB_mem_ballIter nb rest x b [x] (by simp) hchain
    have : b ∈ ball nb x m :=
      ballIter_mono nb [x] rest.length m (by simpa using Nat.lt_succ_iff.mp hle) hmem
    exact hb this

theorem stackOk_tail {α : Type} [DecidableEq α] (nb : α → List (α × ℕ))
    (start : α) (fr : DfsFrame α) (rest : List (DfsFrame α))
    (h : stackOk nb start (fr :: rest)) : stackOk nb start rest := by
  cases rest with
  | nil => trivial
  | cons fr2 rest2 => exact h.2.2

theorem stackOk_retop {α : Type} [DecidableEq α] (nb : α → List (α × ℕ))
    (start : α) (fr fr' : DfsFrame α) (rest : List (DfsFrame α))
    (hs : fr'.state = fr.state) (hd : fr'.depth = fr.depth)
    (h : stackOk nb start (fr :: rest)) : stackOk nb start (fr' :: rest) := by
  cases rest with
  | nil => exact ⟨by rw [hs]; exact h.1, by rw [hd]; exact h.2⟩
  | cons fr2 rest2 =>
    exact ⟨by rw [hs]; exact h.1, by rw [hd]; exact h.2.1, h.2.2⟩

/-- A well-formed stack's top is the end of a genuine path from the start
whose length is the top depth plus one. -/
theorem stackOk_path {α : Type} [DecidableEq α] (nb : α → List (α × ℕ))
    (start : α) :
    ∀ (rest : List (DfsFrame α)) (fr : DfsFrame α),
      stackOk nb start (fr :: rest) →
        ∃ l : List α, isPathB nb start fr.state l = true ∧
          l.length = fr.depth + 1 := by
  intro rest
  induction rest with
  | nil =>
    intro fr h
    obtain ⟨hs, hd⟩ := h
    refine ⟨[start], ?_, by simp [hd]⟩
    simp [isPathB, chainB, hs]
  | cons fr2 rest2 ih =>
    intro fr h
    obtain ⟨hstep, hd, hrest⟩ := h
    obtain ⟨l, hl, hlen⟩ := ih fr2 hrest
    exact ⟨l ++ [fr.state], isPathB_snoc nb hl hstep, by simp [hlen, hd]⟩

/-- Helper for C9: a depth-bounded `dfs` run whose bound is below every
solution cost can never terminate `ok`. -/
theorem dfsLoop_no_ok {α : Type} [DecidableEq α] (start goal : α)
    (nb : α → List (α × ℕ)) (md : ℕ) (tO : ℕ → Bool)
    (Hdeep : ∀ l, isPathB nb start goal l = true → md + 1 < l.length) :
    ∀ (fuel : ℕ) (st : DfsState α),
      stackOk nb start st.stack → framesIt nb st.stack →
        ∀ r, dfsLoop goal nb (some md) tO fuel st = some r →
          r.termination ≠ .ok := by
  intro fuel
  induction fuel with
  | zero => intro st _ _ r h; simp [dfsLoop] at h
  | succ n ih =>
    intro st hok hit r h
    rw [dfsLoop] at h
    split at h
    · cases h; simp [dfsRecOf]
    · rename_i fr frRest hstk
      split at h
      · cases h; simp [dfsRecOf]
      · simp only [] at h
        split at h
        · rename_i hnil
          refine ih _ ?_ ?_ r h
          · exact stackOk_tail nb start fr frRest (hstk ▸ hok)
          · intro f hf
            exact hit f (by rw [hstk]; exact List.mem_cons_of_mem _ hf)
        · rename_i s2 ccost it' hit'
          have hmem : (s2, ccost) ∈ nb fr.state :=
            hit fr (by rw [hstk]; exact List.mem_cons_self _ _)
              (s2, ccost) (by rw [hit']; exact List.mem_cons_self _ _)
          have hstep : isStepB nb fr.state s2 = true := by
            simp only [isStepB, List.any_eq_true, decide_eq_true_eq]
            exact ⟨(s2, ccost), hmem, rfl⟩
          have hitTop : framesIt nb ({ fr with it := it' } :: frRest) := by
            intro f hf
            rcases List.mem_cons.mp hf with rfl | hf2
            · intro p hp
              exact hit fr (by rw [hstk]; exact List.mem_cons_self _ _)
                p (by rw [hit']; exact List.mem_cons_of_mem _ hp)
            · exact hit f (by rw [hstk]; exact List.mem_cons_of_mem _ hf2)
          have hokTop : stackOk nb start ({ fr with it := it' } :: frRest) :=
            stackOk_retop nb start fr _ frRest rfl rfl (hstk ▸ hok)
          split at h
          · exact ih _ hokTop hitTop r h
          · split at h
            · exact ih _ hokTop hitTop r h
            · try simp only [] at h
              split at h
              · rename_i hgoal
                exfalso
                obtain ⟨l, hl, hlen⟩ :=
                  stackOk_path nb start frRest fr (hstk ▸ hok)
                have hpath := isPathB_snoc nb hl hstep
                rw [hgoal] at hpath
                have hlong := Hdeep _ hpath
                rename_i hdepthok _
                simp only [decide_eq_true_eq, not_lt] at hdepthok
                simp only [List.length_append, hlen, List.length_singleton]
                  at hlong
                omega
              · refine ih _ ?_ ?_ r h
                · split
                  all_goals
                    exact ⟨by simpa using hstep, rfl,
                      stackOk_retop nb start fr _ frRest rfl rfl (hstk ▸ hok)⟩
                · split
                  all_goals
                    intro f hf
                    rcases List.mem_cons.mp hf with rfl | hf2
                  · intro p hp
                    exact hp
                  · rcases List.mem_cons.mp hf2 with rfl | hf3
                    · intro p hp
                      exact hit fr (by rw [hstk]; exact List.mem_cons_self _ _)
                        p (by rw [hit']; exact List.mem_cons_of_mem _ hp)
                    · exact hit f
                        (by rw [hstk]; exact List.mem_cons_of_mem _ hf3)
                  · intro p hp
                    exact hp
                  · rcases List.mem_cons.mp hf2 with rfl | hf3
                    · intro p hp
                      exact hit fr (by rw [hstk]; exact List.mem_cons_self _ _)
                        p (by rw [hit']; exact List.mem_cons_of_mem _ hp)
                    · exact hit f
                        (by rw [hstk]; exact List.mem_cons_of_mem _ hf3)

theorem dfsT_pos (B : ℕ) : ∀ k, 1 ≤ dfsT B k := by
  intro k
  cases k with
  | zero => simp [dfsT]
  | succ m => simp [dfsT]; omega

/-- Helper for C9: enough fuel makes the depth-bounded `dfs` loop return. -/
theorem dfsLoop_terminates {α : Type} [DecidableEq α] (goal : α)
    (nb : α → List (α × ℕ)) (md B : ℕ) (tO : ℕ → Bool)
    (HB : ∀ s, (nb s).length ≤ B) :
    ∀ (n : ℕ) (st : DfsState α), dfsMeasure B md st < n →
      ∃ r, dfsLoop goal nb (some md) tO n st = some r := by
  intro n
  induction n with
  | zero => intro st hm; omega
  | succ n ih =>
    intro st hm
    rw [dfsLoop]
    split
    · exact ⟨_, rfl⟩
    · rename_i fr frRest hstk
      split
      · exact ⟨_, rfl⟩
      · simp only []
        have hms : dfsMeasure B md st = frameW B md fr + dfsMeasure B md
            { st with stack := frRest } := by
          simp [dfsMeasure, hstk]
        split
        · refine ih _ ?_
          have h1 : 1 ≤ frameW B md fr := by simp [frameW]
          simp only [dfsMeasure] at *
          omega
        · rename_i s2 ccost it' hit'
          have hfr : frameW B md fr =
              frameW B md { fr with it := it' } + dfsT B (md - fr.depth) := by
            simp [frameW, hit', Nat.succ_mul]
            ring
          have hpos := dfsT_pos B (md - fr.depth)
          split
          · refine ih _ ?_
            simp only [dfsMeasure, hstk] at hm ⊢
            simp only [List.map_cons, List.sum_cons] at hm ⊢
            omega
          · split
            · refine ih _ ?_
              simp only [dfsMeasure, hstk] at hm ⊢
              simp only [List.map_cons, List.sum_cons] at hm ⊢
              omega
            · try simp only []
              split
              · exact ⟨_, rfl⟩
              · rename_i hdeps _ _
                refine ih _ ?_
                simp only [decide_eq_true_eq, not_lt] at hdeps
                have hk : md - fr.depth = (md - (fr.depth + 1)) + 1 := by omega
                have hnew : frameW B md (⟨s2, fr.depth + 1, nb s2, false⟩ :
                    DfsFrame α) + 1 ≤ dfsT B (md - fr.depth) := by
                  simp only [frameW, dfsT, hk]
                  have := HB s2
                  have hmul : (nb s2).length * dfsT B (md - (fr.depth + 1)) ≤
                      B * dfsT B (md - (fr.depth + 1)) :=
                    Nat.mul_le_mul_right _ this
                  omega
                have hfr2 : frameW B md
                    ({ fr with it := it', didExpand := true } : DfsFrame α) =
                    frameW B md ({ fr with it := it' } : DfsFrame α) := rfl
                split
                all_goals
                  simp only [dfsMeasure, hstk, List.map_cons, List.sum_cons]
                    at hm ⊢
                all_goals omega

/-- With a never-firing timeout oracle, `dfs` cannot report `timeout`. -/
theorem dfsLoop_no_timeout {α : Type} [DecidableEq α] (goal : α)
    (nb : α → List (α × ℕ)) (md : Option ℕ) :
    ∀ (fuel : ℕ) (st : DfsState α) (r : DfsRec α),
      dfsLoop goal nb md (fun _ => false) fuel st = some r →
        r.termination ≠ .timeout := by
  intro fuel
  induction fuel with
  | zero => intro st r h; simp [dfsLoop] at h
  | succ n ih =>
    intro st r h
    rw [dfsLoop] at h
    simp only [] at h
    repeat' split at h
    all_goals first
      | (cases h; simp_all [dfsRecOf])
      | (exact ih _ _ h)
      | simp at h

/-- C9: if every solution of the instance costs more than `max_depth`, the
depth-bounded `dfs` never terminates `ok` and always reports `g = None`;
with enough fuel it does terminate, and without a timeout it terminates
`exhausted`. -/
theorem c9_dfs_exhausts_below_bound {α : Type} [DecidableEq α]
    (start goal : α) (nb : α → List (α × ℕ)) (md B : ℕ) (tO : ℕ → Bool)
    (Hdeep : ∀ l, isPathB nb start goal l = true → md + 1 < l.length)
    (HB : ∀ s, (nb s).length ≤ B) :
    (∀ (fuel : ℕ) (r : DfsRec α),
      dfs start goal nb (some md) tO fuel = some r →
        r.termination ≠ .ok ∧ r.g = none) ∧
    (∃ (fuel : ℕ) (r : DfsRec α),
      dfs start goal nb (some md) tO fuel = some r) ∧
    (∀ (fuel : ℕ) (r : DfsRec α),
      dfs start goal nb (some md) (fun _ => false) fuel = some r →
        r.termination = .exhausted ∧ r.g = none) := by
  have hne : ¬ start = goal := by
    intro hsg
    have : isPathB nb start goal [start] = true := by
      simp [isPathB, chainB, hsg]
    have := Hdeep [start] this
    simp at this
  have hnook : ∀ (tO' : ℕ → Bool) (fuel : ℕ) (r : DfsRec α),
      dfs start goal nb (some md) tO' fuel = some r →
        r.termination ≠ .ok ∧ r.g = none := by
    intro tO' fuel r h
    rw [dfs] at h
    rw [if_neg hne] at h
    have hok : stackOk nb start [⟨start, 0, nb start, false⟩] := ⟨rfl, rfl⟩
    have hitI : framesIt nb [(⟨start, 0, nb start, false⟩ : DfsFrame α)] := by
      intro f hf
      rcases List.mem_cons.mp hf with rfl | hf2
      · intro p hp; exact hp
      · simp at hf2
    have h1 := dfsLoop_no_ok start goal nb md tO' Hdeep fuel _ hok hitI r h
    refine ⟨h1, ?_⟩
    have h2 := dfsLoop_g_ok goal nb (some md) tO' fuel _ r h
    rcases hr : r.g with _ | v
    · rfl
    · exfalso
      exact h1 (h2.mp (by simp [hr]))
  refine ⟨hnook tO, ?_, ?_⟩
  · obtain ⟨r, hr⟩ := dfsLoop_terminates goal nb md B tO HB
      (dfsMeasure B md
        { stack := [⟨start, 0, nb start, false⟩], onPath := [start],
          expanded := 0, generated := 0, duplicates := 0, peakDepth := 0,
          tchk := 0 } + 1) _ (Nat.lt_succ_self _)
    refine ⟨dfsMeasure B md
      { stack := [⟨start, 0, nb start, false⟩], onPath := [start],
        expanded := 0, generated := 0, duplicates := 0, peakDepth := 0,
        tchk := 0 } + 1, r, ?_⟩
    rw [dfs, if_neg hne]
    exact hr
  · intro fuel r h
    have h1 := hnook (fun _ => false) fuel r h
    rw [dfs, if_neg hne] at h
    have h2 := dfsLoop_no_timeout goal nb (some md) fuel _ r h
    refine ⟨?_, h1.2⟩
    rcases ht : r.termination with _ | _ | _
    · exact absurd ht h1.1
    · exact absurd ht h2
    · rfl

theorem p8_NEI_len (i : ℕ) : (Puzzle8.NEI i).length ≤ 4 := by
  match i with
  | 0 | 1 | 2 | 3 | 4 | 5 | 6 | 7 | 8 => decide
  | n + 9 =>
    have he : Puzzle8.NEI (n + 9) = [] := rfl
    simp [he]

theorem p8_neighbors_len (s : List ℕ) : (Puzzle8.neighbors s).length ≤ 4 := by
  simp only [Puzzle8.neighbors, List.length_map]
  exact p8_NEI_len _

/-- C9 witness: the concrete scenario, a 3x3 instance whose optimal cost is
6 (a cost-6 solution exists and no state within 3 moves is the goal), run
with `max_depth = 3` and no timeout: `dfs` terminates `exhausted` with
`g = None`. -/
theorem c9_dfs_exhausts_below_bound_witness :
    (∀ l, isPathB Puzzle8.neighbors c9Start Puzzle8.GOAL l = true →
      3 + 1 < l.length) ∧
    ((∀ (fuel : ℕ) (r : DfsRec (List ℕ)),
      dfs c9Start Puzzle8.GOAL Puzzle8.neighbors (some 3) (fun _ => false)
          fuel = some r →
        r.termination ≠ .ok ∧ r.g = none) ∧
    (∃ (fuel : ℕ) (r : DfsRec (List ℕ)),
      dfs c9Start Puzzle8.GOAL Puzzle8.neighbors (some 3) (fun _ => false)
          fuel = some r) ∧
    (∀ (fuel : ℕ) (r : DfsRec (List ℕ)),
      dfs c9Start Puzzle8.GOAL Puzzle8.neighbors (some 3) (fun _ => false)
          fuel = some r →
        r.termination = .exhausted ∧ r.g = none)) ∧
    (dfs c9Start Puzzle8.GOAL Puzzle8.neighbors (some 3) (fun _ => false)
        100).map (fun r => (r.termination, r.g, r.expanded, r.generated)) =
      some (.exhausted, none, 13, 20) ∧
    isPathB Puzzle8.neighbors c9Start Puzzle8.GOAL c9Path = true ∧
    c9Path.length = 7 := by
  have hdeep : ∀ l, isPathB Puzzle8.neighbors c9Start Puzzle8.GOAL l = true →
      3 + 1 < l.length :=
    no_short_path_of_ball Puzzle8.neighbors c9Start Puzzle8.GOAL 3 (by decide)
  exact ⟨hdeep,
    c9_dfs_exhausts_below_bound c9Start Puzzle8.GOAL Puzzle8.neighbors 3 4
      (fun _ => false) hdeep p8_neighbors_len,
    by decide, by decide, by decide⟩

theorem getD_set_self : ∀ (s : List ℕ) (i v : ℕ), i < s.length →
    (s.set i v).getD i 0 = v := by
  intro s
  induction s with
  | nil => intro i v h; simp at h
  | cons x rest ih =>
    intro i v h
    cases i with
    | zero => rfl
    | succ n =>
      simp only [List.set_cons_succ, List.getD_cons_succ]
      exact ih n v (by simpa using h)

theorem getD_set_ne : ∀ (s : List ℕ) (i j v : ℕ), i ≠ j →
    (s.set i v).getD j 0 = s.getD j 0 := by
  intro s
  induction s with
  | nil => intro i j v _; simp
  | cons x rest ih =>
    intro i j v hij
    cases i with
    | zero =>
      cases j with
      | zero => exact absurd rfl hij
      | succ m => rfl
    | succ n =>
      cases j with
      | zero => rfl
      | succ m =>
        simp only [List.set_cons_succ, List.getD_cons_succ]
        exact ih n m v (fun he => hij (by rw [he]))

theorem set_getD_self : ∀ (s : List ℕ) (i : ℕ), s.set i (s.getD i 0) = s := by
  intro s
  induction s with
  | nil => intro i; rfl
  | cons x rest ih =>
    intro i
    cases i with
    | zero => rfl
    | succ n => simp only [List.getD_cons_succ, List.set_cons_succ, ih n]

theorem zero_mem_set {s : List ℕ} {j : ℕ} (hj : j < s.length) :
    (0 : ℕ) ∈ s.set j 0 := by
  have hlen : j < (s.set j 0).length := by simpa using hj
  have h2 : (s.set j 0)[j] = 0 := List.getElem_set_self hlen
  have h3 := List.getElem_mem hlen
  rwa [h2] at h3

/-- The Manhattan-style sum over `enumFrom` equals the structural sum. -/
theorem gmAux_enumFrom (C : ℕ) (gp : ℕ → ℕ × ℕ) :
    ∀ (s : List ℕ) (k : ℕ),
      ((List.enumFrom k s).map (fun p =>
        if p.2 = 0 then 0
        else Nat.dist (p.1 / C) (gp p.2).1 +
          Nat.dist (p.1 % C) (gp p.2).2)).sum = gmAux C gp k s := by
  intro s
  induction s with
  | nil => intro k; rfl
  | cons t rest ih =>
    intro k
    simp only [List.enumFrom_cons, List.map_cons, List.sum_cons, gmAux, ih,
      mterm]

theorem p8_manhattan_gmAux (s : List ℕ) :
    Puzzle8.manhattan s = gmAux 3 Puzzle8.goalPos 0 s := by
  have he : s.enum = List.enumFrom 0 s := rfl
  rw [Puzzle8.manhattan, he, gmAux_enumFrom]

theorem rect_manhattan_gmAux (C : ℕ) (s : List ℕ) :
    RectPuzzle.manhattan C s = gmAux C (RectPuzzle.goalPos C) 0 s := by
  have he : s.enum = List.enumFrom 0 s := rfl
  rw [RectPuzzle.manhattan, he, gmAux_enumFrom]

/-- Exchange law: overwriting one cell trades its old term for the new term. -/
theorem gmAux_set (C : ℕ) (gp : ℕ → ℕ × ℕ) :
    ∀ (s : List ℕ) (k i v : ℕ), i < s.length →
      gmAux C gp k (s.set i v) + mterm C gp (k + i) (s.getD i 0) =
        gmAux C gp k s + mterm C gp (k + i) v := by
  intro s
  induction s with
  | nil => intro k i v h; simp at h
  | cons t rest ih =>
    intro k i v h
    cases i with
    | zero =>
      simp only [List.set_cons_zero, gmAux, List.getD_cons_zero, Nat.add_zero]
      ring
    | succ n =>
      simp only [List.set_cons_succ, gmAux, List.getD_cons_succ]
      have := ih (k + 1) n v (by simpa using h)
      have harr : k + 1 + n = k + (n + 1) := by omega
      rw [harr] at this
      omega

/-- Moving the blank across one grid-adjacent cell raises the Manhattan-style
sum by at most one. -/
theorem gmAux_swap_le (C : ℕ) (gp : ℕ → ℕ × ℕ) (s : List ℕ) (z j : ℕ)
    (hz0 : s.getD z 0 = 0) (hz : z < s.length) (hj : j < s.length)
    (hadj : Nat.dist (z / C) (j / C) + Nat.dist (z % C) (j % C) = 1) :
    gmAux C gp 0 s ≤ 1 + gmAux C gp 0 (listSwap s z j) := by
  have hzj : z ≠ j := by
    intro he
    rw [he] at hadj
    simp [Nat.dist] at hadj
  have e1 := gmAux_set C gp s 0 z (s.getD j 0) hz
  rw [hz0] at e1
  have e2 := gmAux_set C gp (s.set z (s.getD j 0)) 0 j (s.getD z 0)
    (by simpa using hj)
  rw [getD_set_ne s z j (s.getD j 0) hzj, hz0] at e2
  have hswap : listSwap s z j = (s.set z (s.getD j 0)).set j (s.getD z 0) :=
    rfl
  rw [hz0] at hswap
  rw [← hswap] at e2
  simp only [Nat.zero_add, mterm, eq_self_iff_true, if_true] at e1 e2
  have hbound : mterm C gp j (s.getD j 0) ≤ 1 + mterm C gp z (s.getD j 0) := by
    rcases Nat.eq_zero_or_pos (s.getD j 0) with hb | hb
    · rw [mterm, mterm, if_pos hb, if_pos hb]
      omega
    · have hb' : s.getD j 0 ≠ 0 := by omega
      simp only [mterm, if_neg hb']
      skip
      have t1 := Nat.dist.triangle_inequality (j / C) (z / C)
        ((gp (s.getD j 0)).1)
      have t2 := Nat.dist.triangle_inequality (j % C) (z % C)
        ((gp (s.getD j 0)).2)
      have hadj' : Nat.dist (j / C) (z / C) + Nat.dist (j % C) (z % C) = 1 := by
        rw [Nat.dist_comm (j / C), Nat.dist_comm (j % C)]
        exact hadj
      omega
  simp only [mterm] at hbound
  omega

/-- All moves in the 3x3 precomputed table are grid-adjacent. -/
theorem p8_NEI_adj :
    ∀ z < 9, ∀ j ∈ Puzzle8.NEI z,
      Nat.dist (z / 3) (j / 3) + Nat.dist (z % 3) (j % 3) = 1 := by
  decide

/-- Membership description of the rectangular move table. -/
theorem mem_rect_nei (R C z j : ℕ) :
    j ∈ RectPuzzle.nei R C z ↔
      (z / C > 0 ∧ j = z - C) ∨ (z / C < R - 1 ∧ j = z + C) ∨
        (z % C > 0 ∧ j = z - 1) ∨ (z % C < C - 1 ∧ j = z + 1) := by
  unfold RectPuzzle.nei
  split_ifs <;> simp_all <;> omega

/-- All moves of the rectangular table are grid-adjacent (for any blank
index, including indices beyond the board). -/
theorem rect_nei_adj (R C z j : ℕ) (hj : j ∈ RectPuzzle.nei R C z)
    (hne : j ≠ z) :
    Nat.dist (z / C) (j / C) + Nat.dist (z % C) (j % C) = 1 := by
  rcases Nat.eq_zero_or_pos C with hC | hC
  · subst hC
    rw [mem_rect_nei] at hj
    simp only [Nat.div_zero, Nat.mod_zero] at hj ⊢
    rcases hj with ⟨h1, _⟩ | ⟨_, h2⟩ | ⟨h3, h4⟩ | ⟨h5, _⟩
    · omega
    · omega
    · subst h4
      simp [Nat.dist]
      omega
    · omega
  · have hq := Nat.div_add_mod z C
    have hr : z % C < C := Nat.mod_lt _ hC
    rw [mem_rect_nei] at hj
    rcases hj with ⟨h1, rfl⟩ | ⟨h1, rfl⟩ | ⟨h1, rfl⟩ | ⟨h1, rfl⟩
    · obtain ⟨q', hq'⟩ : ∃ q', z / C = q' + 1 := ⟨z / C - 1, by omega⟩
      have hx : C * (q' + 1) = C * q' + C := by ring
      have hrep : z - C = C * q' + z % C := by
        rw [hq', hx] at hq
        omega
      rw [hrep, Nat.mul_add_div hC, Nat.div_eq_of_lt hr, Nat.mul_add_mod,
        Nat.mod_eq_of_lt hr, hq']
      simp [Nat.dist]
    · have hx : C * (z / C + 1) = C * (z / C) + C := by ring
      have hrep : z + C = C * (z / C + 1) + z % C := by
        rw [hx]
        omega
      rw [hrep, Nat.mul_add_div hC, Nat.div_eq_of_lt hr, Nat.mul_add_mod,
        Nat.mod_eq_of_lt hr]
      simp [Nat.dist]
    · have hrep : z - 1 = C * (z / C) + (z % C - 1) := by omega
      have hlt : z % C - 1 < C := by omega
      rw [hrep, Nat.mul_add_div hC, Nat.div_eq_of_lt hlt, Nat.mul_add_mod,
        Nat.mod_eq_of_lt hlt]
      simp [Nat.dist]
      omega
    · have hrep : z + 1 = C * (z / C) + (z % C + 1) := by omega
      have hlt : z % C + 1 < C := by omega
      rw [hrep, Nat.mul_add_div hC, Nat.div_eq_of_lt hlt, Nat.mul_add_mod,
        Nat.mod_eq_of_lt hlt]
      simp [Nat.dist]

theorem set_oob : ∀ (s : List ℕ) (j v : ℕ), s.length ≤ j → s.set j v = s := by
  intro s
  induction s with
  | nil => intro j v _; rfl
  | cons x rest ih =>
    intro j v h
    cases j with
    | zero => simp at h
    | succ n => simp only [List.set_cons_succ]; rw [ih n v (by simpa using h)]

theorem indexOf_zero_spec : ∀ s : List ℕ, (0 : ℕ) ∈ s →
    s.indexOf 0 < s.length ∧ s.getD (s.indexOf 0) 0 = 0 := by
  intro s
  induction s with
  | nil => intro h; simp at h
  | cons x rest ih =>
    intro h
    by_cases hx : x = 0
    · subst hx
      simp [List.indexOf_cons_self]
    · have hmem : (0 : ℕ) ∈ rest := by
        rcases List.mem_cons.mp h with he | hm
        · exact absurd he.symm hx
        · exact hm
      have := ih hmem
      rw [List.indexOf_cons_ne rest hx]
      simp only [List.length_cons, List.getD_cons_succ]
      exact ⟨by omega, this.2⟩

/-- The key swap case split shared by both puzzle domains: either the swap
is degenerate (the state is unchanged), or the blank genuinely moves to an
adjacent in-range cell. -/
theorem listSwap_cases (s : List ℕ) (z j : ℕ) (hz : z < s.length)
    (hz0 : s.getD z 0 = 0) :
    (j = z ∨ s.length ≤ j → listSwap s z j = s) ∧
    (j < s.length → listSwap s z j = (s.set z (s.getD j 0)).set j 0) := by
  constructor
  · intro hcase
    rcases hcase with rfl | hle
    · show (s.set j (s.getD j 0)).set j (s.getD j 0) = s
      rw [set_getD_self, set_getD_self]
    · show (s.set z (s.getD j 0)).set j (s.getD z 0) = s
      have hj0 : s.getD j 0 = 0 := by
        rw [List.getD_eq_getElem?_getD, List.getElem?_eq_none hle]
        rfl
      have h1 : s.set z 0 = s := by
        rw [← hz0]
        exact set_getD_self s z
      rw [hj0, hz0, h1]
      exact set_oob s j 0 hle
  · intro hlt
    show (s.set z (s.getD j 0)).set j (s.getD z 0) = _
    rw [hz0]

theorem p8_NEI_empty (z : ℕ) (h : 9 ≤ z) : Puzzle8.NEI z = [] := by
  obtain ⟨k, rfl⟩ := Nat.exists_eq_add_of_le h
  rw [Nat.add_comm 9 k]
  rfl

/-- Consistency of the 3x3 Manhattan heuristic along every move, for every
state containing the blank. -/
theorem p8_manhattan_consistent (s : List ℕ) (h0 : (0 : ℕ) ∈ s) :
    ∀ p ∈ Puzzle8.neighbors s,
      Puzzle8.manhattan s ≤ p.2 + Puzzle8.manhattan p.1 := by
  intro p hp
  obtain ⟨hzlen, hz0⟩ := indexOf_zero_spec s h0
  simp only [Puzzle8.neighbors, List.mem_map] at hp
  obtain ⟨j, hjmem, rfl⟩ := hp
  by_cases hjz : j = s.indexOf 0
  · rw [(listSwap_cases s _ j hzlen hz0).1 (Or.inl hjz)]
    show Puzzle8.manhattan s ≤ 1 + Puzzle8.manhattan s
    omega
  · by_cases hjlen : j < s.length
    · have hz9 : s.indexOf 0 < 9 := by
        by_contra hge
        push_neg at hge
        rw [p8_NEI_empty _ hge] at hjmem
        simp at hjmem
      have hadj := p8_NEI_adj _ hz9 j hjmem
      show Puzzle8.manhattan s ≤ 1 + Puzzle8.manhattan (listSwap s _ j)
      rw [p8_manhattan_gmAux, p8_manhattan_gmAux]
      exact gmAux_swap_le 3 Puzzle8.goalPos s _ j hz0 hzlen hjlen hadj
    · push_neg at hjlen
      rw [(listSwap_cases s _ j hzlen hz0).1 (Or.inr hjlen)]
      show Puzzle8.manhattan s ≤ 1 + Puzzle8.manhattan s
      omega

/-- Consistency of the rectangular Manhattan heuristic along every move. -/
theorem rect_manhattan_consistent (R C : ℕ) (s : List ℕ)
    (h0 : (0 : ℕ) ∈ s) :
    ∀ p ∈ RectPuzzle.neighbors R C s,
      RectPuzzle.manhattan C s ≤ p.2 + RectPuzzle.manhattan C p.1 := by
  intro p hp
  obtain ⟨hzlen, hz0⟩ := indexOf_zero_spec s h0
  simp only [RectPuzzle.neighbors, List.mem_map] at hp
  obtain ⟨j, hjmem, rfl⟩ := hp
  by_cases hjz : j = s.indexOf 0
  · rw [(listSwap_cases s _ j hzlen hz0).1 (Or.inl hjz)]
    show RectPuzzle.manhattan C s ≤ 1 + RectPuzzle.manhattan C s
    omega
  · by_cases hjlen : j < s.length
    · have hadj := rect_nei_adj R C _ j hjmem hjz
      show RectPuzzle.manhattan C s ≤
        1 + RectPuzzle.manhattan C (listSwap s _ j)
      rw [rect_manhattan_gmAux, rect_manhattan_gmAux]
      exact gmAux_swap_le C (RectPuzzle.goalPos C) s _ j hz0 hzlen hjlen
        (by rw [Nat.dist_comm (s.indexOf 0 / C), Nat.dist_comm
          (s.indexOf 0 % C)] at hadj ⊢; exact hadj)
    · push_neg at hjlen
      rw [(listSwap_cases s _ j hzlen hz0).1 (Or.inr hjlen)]
      show RectPuzzle.manhattan C s ≤ 1 + RectPuzzle.manhattan C s
      omega

/-- Moves preserve the presence of the blank (3x3 table). -/
theorem p8_neighbors_zero (s : List ℕ) (h0 : (0 : ℕ) ∈ s) :
    ∀ p ∈ Puzzle8.neighbors s, (0 : ℕ) ∈ p.1 := by
  intro p hp
  obtain ⟨hzlen, hz0⟩ := indexOf_zero_spec s h0
  simp only [Puzzle8.neighbors, List.mem_map] at hp
  obtain ⟨j, hjmem, rfl⟩ := hp
  by_cases hjz : j = s.indexOf 0
  · rw [(listSwap_cases s _ j hzlen hz0).1 (Or.inl hjz)]
    exact h0
  · by_cases hjlen : j < s.length
    · show (0 : ℕ) ∈ listSwap s _ j
      rw [(listSwap_cases s _ j hzlen hz0).2 hjlen]
      exact zero_mem_set (by simpa using hjlen)
    · push_neg at hjlen
      rw [(listSwap_cases s _ j hzlen hz0).1 (Or.inr hjlen)]
      exact h0

/-- Moves preserve the presence of the blank (rectangular boards). -/
theorem rect_neighbors_zero (R C : ℕ) (s : List ℕ) (h0 : (0 : ℕ) ∈ s) :
    ∀ p ∈ RectPuzzle.neighbors R C s, (0 : ℕ) ∈ p.1 := by
  intro p hp
  obtain ⟨hzlen, hz0⟩ := indexOf_zero_spec s h0
  simp only [RectPuzzle.neighbors, List.mem_map] at hp
  obtain ⟨j, hjmem, rfl⟩ := hp
  by_cases hjz : j = s.indexOf 0
  · rw [(listSwap_cases s _ j hzlen hz0).1 (Or.inl hjz)]
    exact h0
  · by_cases hjlen : j < s.length
    · show (0 : ℕ) ∈ listSwap s _ j
      rw [(listSwap_cases s _ j hzlen hz0).2 hjlen]
      exact zero_mem_set (by simpa using hjlen)
    · push_neg at hjlen
      rw [(listSwap_cases s _ j hzlen hz0).1 (Or.inr hjlen)]
      exact h0

/-- Along any path to the goal, a step-consistent heuristic that vanishes at
the goal is bounded by the path cost. -/
theorem consistent_path_le {α : Type} [DecidableEq α]
    (nb : α → List (α × ℕ)) (h : α → ℕ) (P : α → Prop) (goal : α)
    (Hstep : ∀ s, P s → ∀ p ∈ nb s, h s ≤ 1 + h p.1)
    (Hpres : ∀ s, P s → ∀ p ∈ nb s, P p.1) (Hgoal : h goal = 0) :
    ∀ (l : List α) (a : α), P a → isPathB nb a goal l = true →
      h a ≤ l.length - 1 := by
  intro l
  induction l with
  | nil => intro a _ hl; simp [isPathB] at hl
  | cons x rest ih =>
    intro a hP hl
    simp only [isPathB, Bool.and_eq_true, decide_eq_true_eq] at hl
    obtain ⟨rfl, hchain⟩ := hl
    cases rest with
    | nil =>
      simp only [chainB, decide_eq_true_eq] at hchain
      subst hchain
      simp [Hgoal]
    | cons t rest2 =>
      simp only [chainB, Bool.and_eq_true] at hchain
      obtain ⟨hstep, hchain2⟩ := hchain
      simp only [isStepB, List.any_eq_true, decide_eq_true_eq] at hstep
      obtain ⟨p, hpmem, hpt⟩ := hstep
      have h1 : h x ≤ 1 + h t := by
        have := Hstep x hP p hpmem
        rwa [hpt] at this
      have hPt : P t := by
        have := Hpres x hP p hpmem
        rwa [hpt] at this
      have h2 : h t ≤ (t :: rest2).length - 1 := by
        refine ih t hPt ?_
        simp [isPathB, hchain2]
      simp only [List.length_cons] at h2 ⊢
      omega

theorem p8_neighbors_cost (s : List ℕ) :
    ∀ p ∈ Puzzle8.neighbors s, p.2 = 1 := by
  intro p hp
  simp only [Puzzle8.neighbors, List.mem_map] at hp
  obtain ⟨j, _, rfl⟩ := hp
  rfl

theorem rect_neighbors_cost (R C : ℕ) (s : List ℕ) :
    ∀ p ∈ RectPuzzle.neighbors R C s, p.2 = 1 := by
  intro p hp
  simp only [RectPuzzle.neighbors, List.mem_map] at hp
  obtain ⟨j, _, rfl⟩ := hp
  rfl

/-- Admissibility of the 3x3 Manhattan heuristic: it never exceeds the unit
cost of any explicit path to the goal. -/
theorem p8_manhattan_admissible (l : List (List ℕ)) (s : List ℕ)
    (h0 : (0 : ℕ) ∈ s)
    (hl : isPathB Puzzle8.neighbors s Puzzle8.GOAL l = true) :
    Puzzle8.manhattan s ≤ l.length - 1 := by
  refine consistent_path_le Puzzle8.neighbors Puzzle8.manhattan
    (fun t => (0 : ℕ) ∈ t) Puzzle8.GOAL ?_ (fun t ht => p8_neighbors_zero t ht)
    (by decide) l s h0 hl
  intro t ht p hp
  have h1 := p8_manhattan_consistent t ht p hp
  rwa [p8_neighbors_cost t p hp] at h1

/-- Admissibility of the rectangular Manhattan heuristic, given that it
vanishes at the goal board. -/
theorem rect_manhattan_admissible (R C : ℕ)
    (hg : RectPuzzle.manhattan C (RectPuzzle.GOAL R C) = 0)
    (l : List (List ℕ)) (s : List ℕ) (h0 : (0 : ℕ) ∈ s)
    (hl : isPathB (RectPuzzle.neighbors R C) s (RectPuzzle.GOAL R C) l = true) :
    RectPuzzle.manhattan C s ≤ l.length - 1 := by
  refine consistent_path_le (RectPuzzle.neighbors R C) (RectPuzzle.manhattan C)
    (fun t => (0 : ℕ) ∈ t) (RectPuzzle.GOAL R C) ?_
    (fun t ht => rect_neighbors_zero R C t ht) hg l s h0 hl
  intro t ht p hp
  have h1 := rect_manhattan_consistent R C t ht p hp
  rwa [rect_neighbors_cost R C t p hp] at h1

/-- C3: `linear_conflict` is neither admissible nor consistent.  The solvable
state `lcBad` (reachable from the goal along `lcBadPath.reverse`) admits a
26-move solution yet `linear_conflict` assigns it 28; the solvable state
`lcConsS` has the neighbor `lcConsT` one move away with
`linear_conflict lcConsS = 11 > 1 + linear_conflict lcConsT = 9`. -/
theorem c3_linear_conflict_counterexample :
    (isPathB Puzzle8.neighbors Puzzle8.GOAL lcBad lcBadPath.reverse = true ∧
      isPathB Puzzle8.neighbors lcBad Puzzle8.GOAL lcBadPath = true ∧
      lcBadPath.length - 1 = 26 ∧
      ¬ Puzzle8.linear_conflict lcBad ≤ lcBadPath.length - 1) ∧
    (isPathB Puzzle8.neighbors Puzzle8.GOAL lcConsS lcConsPath = true ∧
      (lcConsT, 1) ∈ Puzzle8.neighbors lcConsS ∧
      ¬ Puzzle8.linear_conflict lcConsS ≤
          1 + Puzzle8.linear_conflict lcConsT) := by
  decide

/-- C3 (amended): the Manhattan heuristic of `puzzle8.py` is consistent along
every move and admissible along every path to the goal, for every state
containing the blank; and `linear_conflict` dominates it. -/
theorem c3_manhattan_admissible_consistent (s : List ℕ)
    (h0 : (0 : ℕ) ∈ s) :
    (∀ p ∈ Puzzle8.neighbors s,
        Puzzle8.manhattan s ≤ p.2 + Puzzle8.manhattan p.1) ∧
    (∀ l, isPathB Puzzle8.neighbors s Puzzle8.GOAL l = true →
        Puzzle8.manhattan s ≤ l.length - 1) ∧
    Puzzle8.manhattan s ≤ Puzzle8.linear_conflict s := by
  refine ⟨p8_manhattan_consistent s h0,
    fun l hl => p8_manhattan_admissible l s h0 hl, ?_⟩
  simp only [Puzzle8.linear_conflict]
  exact Nat.le_add_right _ _

/-- Witness for the amended C3 theorem at the concrete state `lcBad`. -/
theorem c3_manhattan_admissible_consistent_witness :
    (0 : ℕ) ∈ lcBad ∧
    ((∀ p ∈ Puzzle8.neighbors lcBad,
        Puzzle8.manhattan lcBad ≤ p.2 + Puzzle8.manhattan p.1) ∧
     (∀ l, isPathB Puzzle8.neighbors lcBad Puzzle8.GOAL l = true →
        Puzzle8.manhattan lcBad ≤ l.length - 1) ∧
     Puzzle8.manhattan lcBad ≤ Puzzle8.linear_conflict lcBad) :=
  ⟨by decide, c3_manhattan_admissible_consistent lcBad (by decide)⟩

theorem cross_cons_left (m : ℕ) (M Y : List ℕ) :
    cross (m :: M) Y = Y.countP (fun y => decide (y < m)) + cross M Y := by
  simp [cross]

theorem inv_append : ∀ X Y : List ℕ,
    inversions (X ++ Y) = inversions X + inversions Y + cross X Y := by
  intro X Y
  induction X with
  | nil => simp [inversions, cross]
  | cons x X ih =>
    have e0 : inversions (x :: (X ++ Y)) =
        (X ++ Y).countP (fun y => decide (y < x)) + inversions (X ++ Y) := rfl
    have e1 : inversions (x :: X) =
        X.countP (fun y => decide (y < x)) + inversions X := rfl
    rw [List.cons_append, e0, e1, cross_cons_left, ih, List.countP_append]
    omega

theorem cross_congr_right (X : List ℕ) {Y Z : List ℕ} (h : Y.Perm Z) :
    cross X Y = cross X Z := by
  induction X with
  | nil => rfl
  | cons x X ih => rw [cross_cons_left, cross_cons_left, ih, h.countP_eq]

theorem cross_cons_right : ∀ (M : List ℕ) (t : ℕ) (B : List ℕ),
    cross M (t :: B) = M.countP (fun m => decide (t < m)) + cross M B := by
  intro M t B
  induction M with
  | nil => rfl
  | cons m M ih =>
    rw [cross_cons_left, cross_cons_left, ih]
    simp only [List.countP_cons, decide_eq_true_eq]
    by_cases h : t < m <;> simp [h] <;> omega

theorem countP_lt_gt : ∀ (M : List ℕ) (t : ℕ), (∀ m ∈ M, m ≠ t) →
    M.countP (fun m => decide (m < t)) +
      M.countP (fun m => decide (t < m)) = M.length := by
  intro M t
  induction M with
  | nil => intro; rfl
  | cons m M ih =>
    intro h
    have hm : m ≠ t := h m (by simp)
    have ih2 := ih (fun x hx => h x (by simp [hx]))
    by_cases h1 : m < t
    · have h2 : ¬ t < m := by omega
      simp only [List.countP_cons, decide_eq_true_eq, h1, h2, if_true,
        if_false, List.length_cons]
      omega
    · have h2 : t < m := by omega
      simp only [List.countP_cons, decide_eq_true_eq, h1, h2, if_true,
        if_false, List.length_cons]
      omega

/-- Moving one element `t` across a block `M` it shares no value with changes
the inversion count by the parity of `M.length`. -/
theorem inv_middle_parity (A M B : List ℕ) (t : ℕ)
    (hM : ∀ m ∈ M, m ≠ t) :
    (inversions (A ++ t :: (M ++ B)) + inversions (A ++ (M ++ t :: B))) % 2
      = M.length % 2 := by
  have hperm : (t :: (M ++ B)).Perm (M ++ t :: B) := List.perm_middle.symm
  rw [inv_append, inv_append, cross_congr_right A hperm]
  have e1 : inversions (t :: (M ++ B)) =
      (M ++ B).countP (fun y => decide (y < t)) + inversions (M ++ B) := rfl
  have e2 : inversions (M ++ B) = inversions M + inversions B + cross M B :=
    inv_append M B
  have e3 : inversions (M ++ t :: B) =
      inversions M + inversions (t :: B) + cross M (t :: B) :=
    inv_append M (t :: B)
  have e4 : inversions (t :: B) =
      B.countP (fun y => decide (y < t)) + inversions B := rfl
  have e5 : cross M (t :: B) =
      M.countP (fun m => decide (t < m)) + cross M B := cross_cons_right M t B
  have e6 : (M ++ B).countP (fun y => decide (y < t)) =
      M.countP (fun y => decide (y < t)) + B.countP (fun y => decide (y < t)) :=
    List.countP_append _ M B
  have e7 := countP_lt_gt M t hM
  omega

theorem set_decomp : ∀ (l : List ℕ) (n a : ℕ), n < l.length →
    l.set n a = l.take n ++ a :: l.drop (n + 1) := by
  intro l
  induction l with
  | nil => intro n a h; simp at h
  | cons x rest ih =>
    intro n a h
    cases n with
    | zero => simp
    | succ n =>
      simp only [List.set_cons_succ, List.take_succ_cons, List.drop_succ_cons,
        List.cons_append, List.cons.injEq, true_and]
      exact ih n a (by simpa using h)

theorem split_at_getD (l : List ℕ) (n : ℕ) (h : n < l.length) :
    l = l.take n ++ l.getD n 0 :: l.drop (n + 1) := by
  conv_lhs => rw [← set_getD_self l n]
  exact set_decomp l n _ h

theorem set_append_right : ∀ (l1 l2 : List ℕ) (n a : ℕ), l1.length ≤ n →
    (l1 ++ l2).set n a = l1 ++ l2.set (n - l1.length) a := by
  intro l1
  induction l1 with
  | nil => intro l2 n a _; simp
  | cons x rest ih =>
    intro l2 n a h
    cases n with
    | zero => simp at h
    | succ n =>
      simp only [List.cons_append, List.set_cons_succ, List.length_cons]
      rw [ih l2 n a (by simpa using h), Nat.succ_sub_succ]

theorem getD_drop_add (l : List ℕ) (n k : ℕ) :
    (l.drop n).getD k 0 = l.getD (n + k) 0 := by
  simp [List.getD_eq_getElem?_getD, List.getElem?_drop]

/-- The two-sided decomposition of a list and of its swap at positions
`z < j`: both are the same outer blocks around the exchanged entries. -/
theorem swap_decomp (s : List ℕ) (z j : ℕ) (hzj : z < j) (hj : j < s.length) :
    s = s.take z ++ s.getD z 0 ::
        ((s.drop (z + 1)).take (j - z - 1) ++ s.getD j 0 :: s.drop (j + 1)) ∧
    listSwap s z j = s.take z ++ s.getD j 0 ::
        ((s.drop (z + 1)).take (j - z - 1) ++ s.getD z 0 :: s.drop (j + 1)) := by
  have hz : z < s.length := lt_trans hzj hj
  have hD : j - z - 1 < (s.drop (z + 1)).length := by
    rw [List.length_drop]
    omega
  have hD2 : s.drop (z + 1) = (s.drop (z + 1)).take (j - z - 1) ++
      s.getD j 0 :: s.drop (j + 1) := by
    have h1 := split_at_getD (s.drop (z + 1)) (j - z - 1) hD
    rw [getD_drop_add, List.drop_drop] at h1
    have e1 : z + 1 + (j - z - 1) = j := by omega
    have e2 : z + 1 + (j - z - 1 + 1) = j + 1 := by omega
    rw [e1, e2] at h1
    exact h1
  constructor
  · conv_lhs => rw [split_at_getD s z hz, hD2]
  · show (s.set z (s.getD j 0)).set j (s.getD z 0) = _
    rw [set_decomp s z _ hz]
    rw [show s.take z ++ s.getD j 0 :: s.drop (z + 1) =
      (s.take z ++ [s.getD j 0]) ++ s.drop (z + 1) by simp]
    have hlt : (s.take z ++ [s.getD j 0]).length ≤ j := by
      simp only [List.length_append, List.length_take, List.length_cons,
        List.length_nil]
      omega
    rw [set_append_right _ _ _ _ hlt]
    have hlen1 : (s.take z ++ [s.getD j 0]).length = z + 1 := by
      simp only [List.length_append, List.length_take, List.length_cons,
        List.length_nil]
      omega
    rw [hlen1]
    rw [set_decomp (s.drop (z + 1)) (j - (z + 1)) _
      (by rw [List.length_drop]; omega)]
    rw [List.drop_drop]
    have e2 : z + 1 + (j - (z + 1) + 1) = j + 1 := by omega
    have e3 : j - (z + 1) = j - z - 1 := by omega
    rw [e2, e3]
    simp

theorem listSwap_comm (s : List ℕ) (i j : ℕ) (h : i ≠ j) :
    listSwap s i j = listSwap s j i :=
  List.set_comm _ _ _ h

theorem indexOf_zero_append (l1 l2 : List ℕ) (h : (0 : ℕ) ∉ l1) :
    (l1 ++ l2).indexOf 0 = l1.length + l2.indexOf 0 := by
  induction l1 with
  | nil => simp
  | cons x rest ih =>
    have hx : x ≠ 0 := fun e => h (by simp [e])
    simp only [List.cons_append, List.length_cons]
    rw [List.indexOf_cons_ne _ hx, ih (fun e => h (by simp [e]))]
    omega

theorem swap_shape_perm (A M B : List ℕ) (t u : ℕ) :
    (A ++ t :: (M ++ u :: B)).Perm (A ++ u :: (M ++ t :: B)) := by
  refine List.Perm.append_left A ?_
  exact ((List.perm_middle).cons t).trans
    ((List.Perm.swap u t (M ++ B)).trans (((List.perm_middle).symm).cons u))

/-- Exchanging the blank with a tile `t` across a middle block `M`: the result
is a permutation, the blank lands at the other end, and the inversion count of
the blank-free projection shifts by the parity of `M.length`. -/
theorem swap_shape_master (A M B : List ℕ) (t : ℕ)
    (hnd : (A ++ 0 :: (M ++ t :: B)).Nodup) :
    (A ++ t :: (M ++ 0 :: B)).Perm (A ++ 0 :: (M ++ t :: B)) ∧
    (A ++ t :: (M ++ 0 :: B)).indexOf 0 = A.length + 1 + M.length ∧
    (A ++ 0 :: (M ++ t :: B)).indexOf 0 = A.length ∧
    (inversions ((A ++ t :: (M ++ 0 :: B)).filter (fun x => decide (x ≠ 0))) +
      inversions ((A ++ 0 :: (M ++ t :: B)).filter
        (fun x => decide (x ≠ 0)))) % 2 = M.length % 2 := by
  rw [List.nodup_append] at hnd
  obtain ⟨hA, hrest, hdisj⟩ := hnd
  rw [List.nodup_cons] at hrest
  obtain ⟨h0notin, hMtB⟩ := hrest
  have h0A : (0 : ℕ) ∉ A := fun h => hdisj h (by simp)
  have h0M : (0 : ℕ) ∉ M := fun h => h0notin (by simp [h])
  have ht0 : t ≠ 0 := fun h => h0notin (by simp [h])
  have h0B : (0 : ℕ) ∉ B := fun h => h0notin (by simp [h])
  have htM : t ∉ M := by
    rw [List.nodup_append] at hMtB
    exact fun h => hMtB.2.2 h (by simp)
  refine ⟨swap_shape_perm A M B t 0, ?_, ?_, ?_⟩
  · have e : A ++ t :: (M ++ 0 :: B) = (A ++ t :: M) ++ 0 :: B := by simp
    rw [e, indexOf_zero_append _ _ (by simp [h0A, Ne.symm ht0, h0M])]
    simp [List.indexOf_cons_self]
    omega
  · rw [indexOf_zero_append _ _ h0A]
    simp [List.indexOf_cons_self]
  · have hMne : ∀ a ∈ M, ¬ a = 0 := fun a ha e => h0M (e ▸ ha)
    have hf1 : (A ++ t :: (M ++ 0 :: B)).filter (fun x => decide (x ≠ 0)) =
        A.filter (fun x => decide (x ≠ 0)) ++
          t :: (M ++ B.filter (fun x => decide (x ≠ 0))) := by
      simp [List.filter_append, List.filter_cons, ht0]
      exact hMne
    have hf2 : (A ++ 0 :: (M ++ t :: B)).filter (fun x => decide (x ≠ 0)) =
        A.filter (fun x => decide (x ≠ 0)) ++
          (M ++ t :: B.filter (fun x => decide (x ≠ 0))) := by
      simp [List.filter_append, List.filter_cons, ht0]
      exact hMne
    rw [hf1, hf2]
    exact inv_middle_parity _ M _ t (fun m hm e => htM (e ▸ hm))

/-- Swapping the blank (sitting at `z`) with the tile at `j` yields a
permutation with the blank at `j` whose blank-free inversion count differs in
parity by the distance minus one. -/
theorem blank_swap_master (s : List ℕ) (z j : ℕ) (hnd : s.Nodup)
    (hz : z < s.length) (hj : j < s.length) (hzj : z ≠ j)
    (hz0 : s.getD z 0 = 0) :
    (listSwap s z j).Perm s ∧ (listSwap s z j).indexOf 0 = j ∧
    (inversions ((listSwap s z j).filter (fun x => decide (x ≠ 0))) +
      inversions (s.filter (fun x => decide (x ≠ 0)))) % 2
      = (max z j - min z j - 1) % 2 := by
  rcases Nat.lt_or_ge z j with hlt | hge
  · obtain ⟨hs, hN⟩ := swap_decomp s z j hlt hj
    rw [hz0] at hs hN
    have hnd2 : ((s.take z) ++ 0 :: (((s.drop (z + 1)).take (j - z - 1)) ++
        s.getD j 0 :: s.drop (j + 1))).Nodup := hs ▸ hnd
    obtain ⟨hP, hI1, _, hpar⟩ := swap_shape_master (s.take z)
      ((s.drop (z + 1)).take (j - z - 1)) (s.drop (j + 1)) (s.getD j 0) hnd2
    have hlA : (s.take z).length = z := by
      simp [List.length_take]
      omega
    have hlM : ((s.drop (z + 1)).take (j - z - 1)).length = j - z - 1 := by
      simp [List.length_take, List.length_drop]
      omega
    refine ⟨?_, ?_, ?_⟩
    · rw [hN]
      conv_rhs => rw [hs]
      exact hP
    · rw [hN, hI1, hlA, hlM]
      omega
    · rw [← hs] at hpar
      rw [hlM] at hpar
      rw [hN]
      have e : max z j - min z j - 1 = j - z - 1 := by omega
      rw [e]
      omega
  · have hlt : j < z := by omega
    rw [listSwap_comm s z j hzj]
    obtain ⟨hs, hN⟩ := swap_decomp s j z hlt hz
    rw [hz0] at hs hN
    have hnd2 : ((s.take j) ++ 0 :: (((s.drop (j + 1)).take (z - j - 1)) ++
        s.getD j 0 :: s.drop (z + 1))).Nodup :=
      (swap_shape_perm (s.take j) ((s.drop (j + 1)).take (z - j - 1))
        (s.drop (z + 1)) (s.getD j 0) 0).nodup (hs ▸ hnd)
    obtain ⟨hP, _, hI2, hpar⟩ := swap_shape_master (s.take j)
      ((s.drop (j + 1)).take (z - j - 1)) (s.drop (z + 1)) (s.getD j 0) hnd2
    have hlA : (s.take j).length = j := by
      simp [List.length_take]
      omega
    have hlM : ((s.drop (j + 1)).take (z - j - 1)).length = z - j - 1 := by
      simp [List.length_take, List.length_drop]
      omega
    refine ⟨?_, ?_, ?_⟩
    · rw [hN]
      conv_rhs => rw [hs]
      exact hP.symm
    · rw [hN, hI2, hlA]
    · rw [← hs] at hpar
      rw [hlM] at hpar
      rw [hN]
      have e : max z j - min z j - 1 = z - j - 1 := by omega
      rw [e]
      omega

theorem div_sub_C (z C : ℕ) (hC : 0 < C) (h : C ≤ z) :
    (z - C) / C = z / C - 1 := by
  obtain ⟨w, rfl⟩ : ∃ w, z = w + C := ⟨z - C, by omega⟩
  rw [Nat.add_sub_cancel, Nat.add_div_right _ hC]
  simp

theorem div_succ_same (z C : ℕ) (hC : 0 < C) (h : z % C < C - 1) :
    (z + 1) / C = z / C := by
  have hq := Nat.div_add_mod z C
  have e : z + 1 = C * (z / C) + (z % C + 1) := by omega
  rw [e, Nat.mul_add_div hC]
  have h2 : (z % C + 1) / C = 0 := Nat.div_eq_of_lt (by omega)
  omega

theorem div_pred_same (z C : ℕ) (hC : 0 < C) (h : 0 < z % C) :
    (z - 1) / C = z / C := by
  have hq := Nat.div_add_mod z C
  have hm : z % C < C := Nat.mod_lt _ hC
  have e : z - 1 = C * (z / C) + (z % C - 1) := by omega
  rw [e, Nat.mul_add_div hC]
  have h2 : (z % C - 1) / C = 0 := Nat.div_eq_of_lt (by omega)
  omega

theorem rect_is_solvable_eq (R C : ℕ) (s : List ℕ) :
    RectPuzzle.is_solvable R C s =
      if C % 2 = 1 then
        inversions (s.filter (fun x => decide (x ≠ 0))) % 2 == 0
      else
        (inversions (s.filter (fun x => decide (x ≠ 0))) +
          (R - s.indexOf 0 / C)) % 2 == 1 := rfl

/-- One blank move on an `R x C` board keeps the state a permutation of
`range (R*C)` and keeps `is_solvable` unchanged. -/
theorem rect_swap_solvable (R C : ℕ) (hR : 2 ≤ R) (hC : 2 ≤ C)
    (s : List ℕ) (hperm : s.Perm (List.range (R * C)))
    (j : ℕ) (hj : j ∈ RectPuzzle.nei R C (s.indexOf 0)) :
    (listSwap s (s.indexOf 0) j).Perm (List.range (R * C)) ∧
    RectPuzzle.is_solvable R C (listSwap s (s.indexOf 0) j) =
      RectPuzzle.is_solvable R C s := by
  have hCpos : 0 < C := by omega
  have hRC : 4 ≤ R * C := Nat.mul_le_mul hR hC
  have hlen : s.length = R * C := by rw [hperm.length_eq, List.length_range]
  have hmem : (0 : ℕ) ∈ s :=
    (hperm.mem_iff).mpr (List.mem_range.mpr (by omega))
  obtain ⟨hzlt, hz0⟩ := indexOf_zero_spec s hmem
  have hnd : s.Nodup := hperm.symm.nodup (List.nodup_range _)
  have hzRC : s.indexOf 0 < R * C := by omega
  have hzdivR : s.indexOf 0 / C < R :=
    (Nat.div_lt_iff_lt_mul hCpos).mpr (by omega)
  have hzmod : s.indexOf 0 % C < C := Nat.mod_lt _ hCpos
  have hmodle : s.indexOf 0 % C ≤ s.indexOf 0 := Nat.mod_le _ _
  rw [mem_rect_nei] at hj
  have hmain : j < s.length ∧ s.indexOf 0 ≠ j ∧
      ((max (s.indexOf 0) j - min (s.indexOf 0) j - 1) % 2 = 0 ∧
          j / C = s.indexOf 0 / C ∨
        (max (s.indexOf 0) j - min (s.indexOf 0) j - 1) % 2 = (C - 1) % 2 ∧
          (j / C = s.indexOf 0 / C + 1 ∨ s.indexOf 0 / C = j / C + 1)) := by
    rcases hj with ⟨h1, rfl⟩ | ⟨h1, rfl⟩ | ⟨h1, rfl⟩ | ⟨h1, rfl⟩
    · have hCz : C ≤ s.indexOf 0 := (Nat.one_le_div_iff hCpos).mp h1
      have hrow := div_sub_C (s.indexOf 0) C hCpos hCz
      refine ⟨by omega, by omega, Or.inr ⟨by omega, Or.inr (by omega)⟩⟩
    · have hrow := Nat.add_div_right (s.indexOf 0) hCpos
      have hjR : (s.indexOf 0 + C) / C < R := by omega
      have hjlt : s.indexOf 0 + C < R * C :=
        (Nat.div_lt_iff_lt_mul hCpos).mp hjR
      refine ⟨by omega, by omega, Or.inr ⟨by omega, Or.inl (by omega)⟩⟩
    · have hrow := div_pred_same (s.indexOf 0) C hCpos h1
      refine ⟨by omega, by omega, Or.inl ⟨by omega, by omega⟩⟩
    · have hrow := div_succ_same (s.indexOf 0) C hCpos h1
      have hjR : (s.indexOf 0 + 1) / C < R := by omega
      have hjlt : s.indexOf 0 + 1 < R * C :=
        (Nat.div_lt_iff_lt_mul hCpos).mp hjR
      refine ⟨by omega, by omega, Or.inl ⟨by omega, by omega⟩⟩
  obtain ⟨hjlt, hne, hfacts⟩ := hmain
  have hjdivR : j / C < R := (Nat.div_lt_iff_lt_mul hCpos).mpr (by omega)
  obtain ⟨hPm, hIm, hparm⟩ :=
    blank_swap_master s (s.indexOf 0) j hnd hzlt hjlt hne hz0
  refine ⟨hPm.trans hperm, ?_⟩
  rw [rect_is_solvable_eq, rect_is_solvable_eq, hIm]
  by_cases hodd : C % 2 = 1
  · rw [if_pos hodd, if_pos hodd]
    have hinv : inversions ((listSwap s (s.indexOf 0) j).filter
          (fun x => decide (x ≠ 0))) % 2 =
        inversions (s.filter (fun x => decide (x ≠ 0))) % 2 := by
      rcases hfacts with ⟨h1, _⟩ | ⟨h1, _⟩ <;> omega
    rw [hinv]
  · rw [if_neg hodd, if_neg hodd]
    have hinv : (inversions ((listSwap s (s.indexOf 0) j).filter
          (fun x => decide (x ≠ 0))) + (R - j / C)) % 2 =
        (inversions (s.filter (fun x => decide (x ≠ 0))) +
          (R - s.indexOf 0 / C)) % 2 := by
      rcases hfacts with ⟨h1, h2⟩ | ⟨h1, h2⟩
      · omega
      · rcases h2 with h2 | h2 <;> omega
    rw [hinv]

theorem pick_mem (cand : List ℕ) (p : ℕ) (h : cand ≠ []) :
    cand.getD (p % cand.length) 0 ∈ cand := by
  have hlen : 0 < cand.length := List.length_pos.mpr h
  have hk : p % cand.length < cand.length := Nat.mod_lt _ hlen
  rw [List.getD_eq_getElem?_getD, List.getElem?_eq_getElem hk]
  simpa using List.getElem_mem hk

theorem rect_nei_ne_nil (R C z : ℕ) (hR : 2 ≤ R) :
    RectPuzzle.nei R C z ≠ [] := by
  rcases Nat.eq_zero_or_pos (z / C) with h | h
  · have h2 : z / C < R - 1 := by omega
    simp [RectPuzzle.nei, h, h2]
    all_goals omega
  · simp [RectPuzzle.nei, h]
    all_goals omega

/-- One scramble step of `RectPuzzle.scramble` preserves being a permutation
of the board and preserves `is_solvable`. -/
theorem rect_scrambleStep_solvable (R C : ℕ) (hR : 2 ≤ R) (hC : 2 ≤ C)
    (s : List ℕ) (lb : Option ℕ) (pick : ℕ)
    (hperm : s.Perm (List.range (R * C))) :
    (RectPuzzle.scrambleStep R C s lb pick).1.Perm (List.range (R * C)) ∧
    RectPuzzle.is_solvable R C (RectPuzzle.scrambleStep R C s lb pick).1 =
      RectPuzzle.is_solvable R C s := by
  have hne0 : RectPuzzle.nei R C (s.indexOf 0) ≠ [] :=
    rect_nei_ne_nil R C _ hR
  cases lb with
  | none =>
    have hstep : (RectPuzzle.scrambleStep R C s none pick).1 =
        listSwap s (s.indexOf 0)
          ((RectPuzzle.nei R C (s.indexOf 0)).getD
            (pick % (RectPuzzle.nei R C (s.indexOf 0)).length) 0) := rfl
    rw [hstep]
    exact rect_swap_solvable R C hR hC s hperm _ (pick_mem _ _ hne0)
  | some lbv =>
    by_cases hcond : lbv ∈ RectPuzzle.nei R C (s.indexOf 0) ∧
        (RectPuzzle.nei R C (s.indexOf 0)).length > 1
    · have hstep : (RectPuzzle.scrambleStep R C s (some lbv) pick).1 =
          listSwap s (s.indexOf 0)
            (((RectPuzzle.nei R C (s.indexOf 0)).erase lbv).getD
              (pick % ((RectPuzzle.nei R C (s.indexOf 0)).erase lbv).length)
              0) := by
        simp only [RectPuzzle.scrambleStep]
        rw [if_pos hcond]
      have hne2 : (RectPuzzle.nei R C (s.indexOf 0)).erase lbv ≠ [] := by
        have hlen := List.length_erase_of_mem hcond.1
        have : 0 < ((RectPuzzle.nei R C (s.indexOf 0)).erase lbv).length := by
          omega
        exact List.ne_nil_of_length_pos this
      rw [hstep]
      exact rect_swap_solvable R C hR hC s hperm _
        (List.erase_subset _ _ (pick_mem _ _ hne2))
    · have hstep : (RectPuzzle.scrambleStep R C s (some lbv) pick).1 =
          listSwap s (s.indexOf 0)
            ((RectPuzzle.nei R C (s.indexOf 0)).getD
              (pick % (RectPuzzle.nei R C (s.indexOf 0)).length) 0) := by
        simp only [RectPuzzle.scrambleStep]
        rw [if_neg hcond]
      rw [hstep]
      exact rect_swap_solvable R C hR hC s hperm _ (pick_mem _ _ hne0)

theorem rect_GOAL_perm (R C : ℕ) (h : 1 ≤ R * C) :
    (RectPuzzle.GOAL R C).Perm (List.range (R * C)) := by
  have e : R * C - 1 + 1 = R * C := by omega
  have h2 : List.range (R * C) =
      0 :: (List.range (R * C - 1)).map Nat.succ := by
    conv_lhs => rw [← e, List.range_succ_eq_map]
  have h3 : (List.range (R * C - 1)).map (· + 1) =
      (List.range (R * C - 1)).map Nat.succ := rfl
  have h4 : (RectPuzzle.GOAL R C).Perm
      (0 :: (List.range (R * C - 1)).map (· + 1)) :=
    List.perm_append_singleton 0 _
  rw [h3] at h4
  rw [h2]
  exact h4

theorem inversions_pairwise_le : ∀ l : List ℕ,
    List.Pairwise (· ≤ ·) l → inversions l = 0 := by
  intro l
  induction l with
  | nil => intro; rfl
  | cons x rest ih =>
    intro h
    rw [List.pairwise_cons] at h
    have e : inversions (x :: rest) =
        rest.countP (fun y => decide (y < x)) + inversions rest := rfl
    have hc : rest.countP (fun y => decide (y < x)) = 0 :=
      List.countP_eq_zero.mpr
        (fun a ha => by simpa using Nat.not_lt.mpr (h.1 a ha))
    rw [e, ih h.2, hc]

theorem rect_GOAL_solvable (R C : ℕ) (hR : 2 ≤ R) (hC : 2 ≤ C) :
    RectPuzzle.is_solvable R C (RectPuzzle.GOAL R C) = true := by
  have hCpos : 0 < C := by omega
  have hmap : ∀ a ∈ (List.range (R * C - 1)).map (· + 1), a ≠ 0 := by
    intro a ha
    rw [List.mem_map] at ha
    obtain ⟨x, _, rfl⟩ := ha
    omega
  have hfil : (RectPuzzle.GOAL R C).filter (fun x => decide (x ≠ 0)) =
      (List.range (R * C - 1)).map (· + 1) := by
    show ((List.range (R * C - 1)).map (· + 1) ++ [0]).filter _ = _
    rw [List.filter_append,
      List.filter_eq_self.mpr (fun a ha => decide_eq_true (hmap a ha))]
    simp
  have hsorted : List.Pairwise (· ≤ ·)
      ((List.range (R * C - 1)).map (· + 1)) :=
    List.Pairwise.map (· + 1) (fun a b hab => by
        show a + 1 ≤ b + 1
        omega)
      (List.pairwise_lt_range (R * C - 1))
  have hinv : inversions
      ((RectPuzzle.GOAL R C).filter (fun x => decide (x ≠ 0))) = 0 := by
    rw [hfil]
    exact inversions_pairwise_le _ hsorted
  have hidx : (RectPuzzle.GOAL R C).indexOf 0 = R * C - 1 := by
    show ((List.range (R * C - 1)).map (· + 1) ++ [0]).indexOf 0 = _
    rw [indexOf_zero_append _ _ (fun h => hmap 0 h rfl)]
    simp
  have hdiv : (R * C - 1) / C = R - 1 := by
    obtain ⟨r, rfl⟩ : ∃ r, R = r + 1 := ⟨R - 1, by omega⟩
    have e1 : (r + 1) * C = C * r + C := by ring
    have e2 : (r + 1) * C - 1 = C * r + (C - 1) := by omega
    rw [e2, Nat.mul_add_div hCpos, Nat.div_eq_of_lt (by omega)]
    omega
  rw [rect_is_solvable_eq, hinv, hidx, hdiv]
  by_cases hodd : C % 2 = 1
  · rw [if_pos hodd]
    rfl
  · rw [if_neg hodd]
    have e : R - (R - 1) = 1 := by omega
    rw [e]
    rfl

theorem rect_scrambleAux_solvable (R C : ℕ) (hR : 2 ≤ R) (hC : 2 ≤ C)
    (choice : ℕ → ℕ) : ∀ n k s lb, s.Perm (List.range (R * C)) →
    (RectPuzzle.scrambleAux R C choice n k s lb).Perm (List.range (R * C)) ∧
    RectPuzzle.is_solvable R C (RectPuzzle.scrambleAux R C choice n k s lb) =
      RectPuzzle.is_solvable R C s := by
  intro n
  induction n with
  | zero => intro k s lb hp; exact ⟨hp, rfl⟩
  | succ n ih =>
    intro k s lb hp
    obtain ⟨h1, h2⟩ := rect_scrambleStep_solvable R C hR hC s lb (choice k) hp
    have e : RectPuzzle.scrambleAux R C choice (n + 1) k s lb =
        RectPuzzle.scrambleAux R C choice n (k + 1)
          (RectPuzzle.scrambleStep R C s lb (choice k)).1
          (RectPuzzle.scrambleStep R C s lb (choice k)).2 := rfl
    rw [e]
    obtain ⟨h3, h4⟩ := ih (k + 1)
      (RectPuzzle.scrambleStep R C s lb (choice k)).1
      (RectPuzzle.scrambleStep R C s lb (choice k)).2 h1
    exact ⟨h3, h4.trans h2⟩

/-- `RectPuzzle.scramble` always produces a solvable permutation of the
board, for every depth and every choice stream. -/
theorem rect_scramble_solvable (R C depth : ℕ) (choice : ℕ → ℕ)
    (hR : 2 ≤ R) (hC : 2 ≤ C) :
    RectPuzzle.is_solvable R C (RectPuzzle.scramble R C depth choice) =
      true := by
  have hGP : (RectPuzzle.GOAL R C).Perm (List.range (R * C)) :=
    rect_GOAL_perm R C (by nlinarith)
  obtain ⟨-, h2⟩ := rect_scrambleAux_solvable R C hR hC choice depth 0
    (RectPuzzle.GOAL R C) none hGP
  rw [show RectPuzzle.scramble R C depth choice =
    RectPuzzle.scrambleAux R C choice depth 0 (RectPuzzle.GOAL R C) none
    from rfl, h2, rect_GOAL_solvable R C hR hC]

theorem npuzzle_scrambleAux_eq (n : ℕ) (choice : ℕ → ℕ) : ∀ m k s lb,
    NPuzzle.scrambleAux n choice m k s lb =
      RectPuzzle.scrambleAux n n choice m k s lb := by
  intro m
  induction m with
  | zero => intro k s lb; rfl
  | succ m ih =>
    intro k s lb
    have estep : NPuzzle.scrambleStep n s lb (choice k) =
        RectPuzzle.scrambleStep n n s lb (choice k) := rfl
    rw [show NPuzzle.scrambleAux n choice (m + 1) k s lb =
      NPuzzle.scrambleAux n choice m (k + 1)
        (NPuzzle.scrambleStep n s lb (choice k)).1
        (NPuzzle.scrambleStep n s lb (choice k)).2 from rfl]
    rw [show RectPuzzle.scrambleAux n n choice (m + 1) k s lb =
      RectPuzzle.scrambleAux n n choice m (k + 1)
        (RectPuzzle.scrambleStep n n s lb (choice k)).1
        (RectPuzzle.scrambleStep n n s lb (choice k)).2 from rfl]
    rw [estep]
    exact ih (k + 1) _ _

theorem npuzzle_scramble_eq (n depth : ℕ) (choice : ℕ → ℕ) :
    NPuzzle.scramble n depth choice = RectPuzzle.scramble n n depth choice :=
  npuzzle_scrambleAux_eq n choice depth 0 (NPuzzle.GOAL n) none

theorem npuzzle_is_solvable_eq (n : ℕ) (s : List ℕ) :
    NPuzzle.is_solvable n s = RectPuzzle.is_solvable n n s := rfl

theorem p8_solvable_eq (s : List ℕ) :
    Puzzle8.is_solvable s = RectPuzzle.is_solvable 3 3 s := rfl

theorem p8_NEI_sub_rect : ∀ z < 9, ∀ j ∈ Puzzle8.NEI z,
    j ∈ RectPuzzle.nei 3 3 z := by decide

theorem p8_NEI_ne : ∀ z < 9, Puzzle8.NEI z ≠ [] := by decide

theorem p8_scrambleStep_solvable (s : List ℕ) (lb : Option ℕ) (pick : ℕ)
    (hperm : s.Perm (List.range 9)) :
    (Puzzle8.scrambleStep s lb pick).1.Perm (List.range 9) ∧
    Puzzle8.is_solvable (Puzzle8.scrambleStep s lb pick).1 =
      Puzzle8.is_solvable s := by
  have hlen : s.length = 9 := by rw [hperm.length_eq, List.length_range]
  have hmem : (0 : ℕ) ∈ s :=
    (hperm.mem_iff).mpr (List.mem_range.mpr (by omega))
  have hz9 : s.indexOf 0 < 9 := by
    have := (indexOf_zero_spec s hmem).1
    omega
  have hne0 : Puzzle8.NEI (s.indexOf 0) ≠ [] := p8_NEI_ne _ hz9
  have hmain : ∀ j ∈ Puzzle8.NEI (s.indexOf 0),
      (listSwap s (s.indexOf 0) j).Perm (List.range 9) ∧
      Puzzle8.is_solvable (listSwap s (s.indexOf 0) j) =
        Puzzle8.is_solvable s := by
    intro j hj
    have hjr : j ∈ RectPuzzle.nei 3 3 (s.indexOf 0) :=
      p8_NEI_sub_rect _ hz9 j hj
    obtain ⟨h1, h2⟩ := rect_swap_solvable 3 3 (by omega) (by omega) s hperm
      j hjr
    exact ⟨h1, by rw [p8_solvable_eq, p8_solvable_eq, h2]⟩
  cases lb with
  | none =>
    have hstep : (Puzzle8.scrambleStep s none pick).1 =
        listSwap s (s.indexOf 0)
          ((Puzzle8.NEI (s.indexOf 0)).getD
            (pick % (Puzzle8.NEI (s.indexOf 0)).length) 0) := rfl
    rw [hstep]
    exact hmain _ (pick_mem _ _ hne0)
  | some lbv =>
    by_cases hcond : lbv ∈ Puzzle8.NEI (s.indexOf 0) ∧
        (Puzzle8.NEI (s.indexOf 0)).length > 1
    · have hstep : (Puzzle8.scrambleStep s (some lbv) pick).1 =
          listSwap s (s.indexOf 0)
            (((Puzzle8.NEI (s.indexOf 0)).erase lbv).getD
              (pick % ((Puzzle8.NEI (s.indexOf 0)).erase lbv).length) 0) := by
        simp only [Puzzle8.scrambleStep]
        rw [if_pos hcond]
      have hne2 : (Puzzle8.NEI (s.indexOf 0)).erase lbv ≠ [] := by
        have hlen2 := List.length_erase_of_mem hcond.1
        have : 0 < ((Puzzle8.NEI (s.indexOf 0)).erase lbv).length := by
          omega
        exact List.ne_nil_of_length_pos this
      rw [hstep]
      exact hmain _ (List.erase_subset _ _ (pick_mem _ _ hne2))
    · have hstep : (Puzzle8.scrambleStep s (some lbv) pick).1 =
          listSwap s (s.indexOf 0)
            ((Puzzle8.NEI (s.indexOf 0)).getD
              (pick % (Puzzle8.NEI (s.indexOf 0)).length) 0) := by
        simp only [Puzzle8.scrambleStep]
        rw [if_neg hcond]
      rw [hstep]
      exact hmain _ (pick_mem _ _ hne0)

theorem p8_scrambleAux_solvable (choice : ℕ → ℕ) : ∀ n k s lb,
    s.Perm (List.range 9) →
    (Puzzle8.scrambleAux choice n k s lb).Perm (List.range 9) ∧
    Puzzle8.is_solvable (Puzzle8.scrambleAux choice n k s lb) =
      Puzzle8.is_solvable s := by
  intro n
  induction n with
  | zero => intro k s lb hp; exact ⟨hp, rfl⟩
  | succ n ih =>
    intro k s lb hp
    obtain ⟨h1, h2⟩ := p8_scrambleStep_solvable s lb (choice k) hp
    rw [show Puzzle8.scrambleAux choice (n + 1) k s lb =
      Puzzle8.scrambleAux choice n (k + 1)
        (Puzzle8.scrambleStep s lb (choice k)).1
        (Puzzle8.scrambleStep s lb (choice k)).2 from rfl]
    obtain ⟨h3, h4⟩ := ih (k + 1) (Puzzle8.scrambleStep s lb (choice k)).1
      (Puzzle8.scrambleStep s lb (choice k)).2 h1
    exact ⟨h3, h4.trans h2⟩

/-- C6: every scramble of any depth, under any choice stream (hence any RNG
seed), is solvable: for the 3x3 table-driven domain, the `n x n` domain
(`n ≥ 2` as asserted by its constructor), and the `R x C` domain
(`R, C ≥ 2` as asserted by its constructor), even widths included. -/
theorem c6_scramble_solvable :
    (∀ depth : ℕ, ∀ choice : ℕ → ℕ,
      Puzzle8.is_solvable (Puzzle8.scramble depth choice) = true) ∧
    (∀ n depth : ℕ, ∀ choice : ℕ → ℕ, 2 ≤ n →
      NPuzzle.is_solvable n (NPuzzle.scramble n depth choice) = true) ∧
    (∀ R C depth : ℕ, ∀ choice : ℕ → ℕ, 2 ≤ R → 2 ≤ C →
      RectPuzzle.is_solvable R C (RectPuzzle.scramble R C depth choice) =
        true) := by
  refine ⟨?_, ?_, ?_⟩
  · intro depth choice
    obtain ⟨-, h2⟩ := p8_scrambleAux_solvable choice depth 0 Puzzle8.GOAL
      none (by decide)
    rw [show Puzzle8.scramble depth choice =
      Puzzle8.scrambleAux choice depth 0 Puzzle8.GOAL none from rfl, h2]
    decide
  · intro n depth choice hn
    rw [npuzzle_is_solvable_eq, npuzzle_scramble_eq]
    exact rect_scramble_solvable n n depth choice hn hn
  · intro R C depth choice hR hC
    exact rect_scramble_solvable R C depth choice hR hC

/-- Witness for C6 at concrete depths, seeds, and board sizes. -/
theorem c6_scramble_solvable_witness :
    (2 ≤ 2 ∧ 2 ≤ 3) ∧
    Puzzle8.is_solvable (Puzzle8.scramble 4 (fun k => k)) = true ∧
    NPuzzle.is_solvable 2 (NPuzzle.scramble 2 5 (fun k => 2 * k + 1)) =
      true ∧
    RectPuzzle.is_solvable 2 3 (RectPuzzle.scramble 2 3 6 (fun k => k * k)) =
      true :=
  ⟨⟨by decide, by decide⟩,
    c6_scramble_solvable.1 4 (fun k => k),
    c6_scramble_solvable.2.1 2 5 (fun k => 2 * k + 1) (by decide),
    c6_scramble_solvable.2.2 2 3 6 (fun k => k * k) (by decide) (by decide)⟩

theorem itemInv_path {α : Type} [DecidableEq α] (nb : α → List (α × ℕ))
    (start : α) : ∀ item : PQItem α, ItemInv nb start item →
    isPathB nb start item.state (reconstructPathA item) = true ∧
    (UnitCost nb → (reconstructPathA item).length = item.g + 1) := by
  intro item
  induction item with
  | root f h g s =>
    intro hi
    obtain ⟨rfl, rfl⟩ := hi
    refine ⟨by simp [reconstructPathA, isPathB, chainB, PQItem.state], ?_⟩
    intro
    simp [reconstructPathA, PQItem.g]
  | node f h g s p ihp =>
    intro hi
    obtain ⟨hp, c, hc, rfl⟩ := hi
    obtain ⟨h1, h2⟩ := ihp hp
    constructor
    · show isPathB nb start s (reconstructPathA p ++ [s]) = true
      refine isPathB_snoc nb h1 ?_
      simp only [isStepB, List.any_eq_true, decide_eq_true_eq]
      exact ⟨(s, c), hc, rfl⟩
    · intro hu
      have h3 := h2 hu
      have h4 : c = 1 := hu p.state (s, c) hc
      show (reconstructPathA p ++ [s]).length = p.g + c + 1
      rw [List.length_append, h3]
      simp [h4]

theorem popMin_mem {α : Type} : ∀ (l : List (HeapEntry α)) (e : HeapEntry α)
    (rest : List (HeapEntry α)), popMin l = some (e, rest) →
    e ∈ l ∧ ∀ x ∈ rest, x ∈ l := by
  intro l
  induction l with
  | nil => intro e rest h; simp [popMin] at h
  | cons a as ih =>
    intro e rest h
    rw [popMin] at h
    split at h
    · cases h
      exact ⟨by simp, by simp⟩
    · rename_i m r has
      have hm := ih m r has
      split at h
      · cases h
        exact ⟨by simp, fun x hx => by simp [hx]⟩
      · cases h
        refine ⟨by simp [hm.1], ?_⟩
        intro x hx
        rcases List.mem_cons.mp hx with rfl | hx2
        · simp
        · simp [hm.2 x hx2]

theorem aStarChildren_inv {α : Type} [DecidableEq α] (hfun : α → ℕ)
    (tie : String) (nb : α → List (α × ℕ)) (start : α) (node : PQItem α)
    (hnode : ItemInv nb start node) :
    ∀ (l : List (α × ℕ)) (st : AStarState α),
      (∀ q ∈ l, q ∈ nb node.state) →
      (∀ e ∈ st.openH, ItemInv nb start e.item) →
      ∀ e ∈ (aStarChildren hfun tie node l st).openH, ItemInv nb start e.item := by
  intro l
  induction l with
  | nil =>
    intro st hsub hinv
    simpa [aStarChildren] using hinv
  | cons q rest ih =>
    intro st hsub hinv
    obtain ⟨s2, c⟩ := q
    rw [aStarChildren]
    simp only []
    refine ih _ (fun q hq => hsub q (List.mem_cons_of_mem _ hq)) ?_
    intro e he
    split at he
    · split at he
      · rcases List.mem_append.mp he with h1 | h1
        · exact hinv e h1
        · simp only [List.mem_singleton] at h1
          subst h1
          exact ⟨hnode, c, hsub (s2, c) (by simp), rfl⟩
      · exact hinv e he
    · split at he
      · rcases List.mem_append.mp he with h1 | h1
        · exact hinv e h1
        · simp only [List.mem_singleton] at h1
          subst h1
          exact ⟨hnode, c, hsub (s2, c) (by simp), rfl⟩
      · exact hinv e he

theorem aStarLoop_path {α : Type} [DecidableEq α] (start goal : α)
    (hfun : α → ℕ) (nb : α → List (α × ℕ)) (tie : String) (tO : ℕ → Bool) :
    ∀ (fuel : ℕ) (st : AStarState α) (r : AStarRec α),
      (∀ e ∈ st.openH, ItemInv nb start e.item) →
      aStarLoop goal hfun nb tie true tO fuel st = some r →
      r.termination = .ok →
      ∃ node : PQItem α, ItemInv nb start node ∧ node.state = goal ∧
        r.path = some (reconstructPathA node) ∧ r.g = some node.g := by
  intro fuel
  induction fuel with
  | zero => intro st r hinv h hok; simp [aStarLoop] at h
  | succ n ih =>
    intro st r hinv h hok
    rw [aStarLoop] at h
    split at h
    · cases h; simp [aStarRecOf] at hok
    · split at h
      · cases h; simp [aStarRecOf] at hok
      · simp only [] at h
        split at h
        · simp at h
        · rename_i e rest hpop
          have hmem := popMin_mem _ _ _ hpop
          split at h
          · refine ih _ r ?_ h hok
            intro x hx
            exact hinv x (hmem.2 x hx)
          · split at h
            · rename_i hgoal
              cases h
              exact ⟨e.item, hinv e hmem.1, hgoal, rfl, rfl⟩
            · refine ih _ r ?_ h hok
              exact aStarChildren_inv hfun tie nb start e.item
                (hinv e hmem.1) _ _ (fun q hq => hq)
                (fun x hx => hinv x (hmem.2 x hx))

theorem alookup_cons_self {α β : Type} [DecidableEq α] (a : α) (b : β)
    (l : List (α × β)) : alookup ((a, b) :: l) a = some b := by
  simp [alookup]

theorem alookup_cons_ne {α β : Type} [DecidableEq α] (a x : α) (b : β)
    (l : List (α × β)) (h : x ≠ a) :
    alookup ((a, b) :: l) x = alookup l x := by
  simp only [alookup, List.find?_cons]
  split
  · rename_i hfound
    simp only [decide_eq_true_eq] at hfound
    exact absurd hfound (Ne.symm h)
  · rfl

theorem parentChain_congr {α : Type} [DecidableEq α]
    (nb : α → List (α × ℕ)) (start : α) (p1 p2 : List (α × Option α)) :
    ∀ chain, ParentChain nb start p1 chain →
      (∀ x ∈ chain, alookup p2 x = alookup p1 x) →
      ParentChain nb start p2 chain := by
  intro chain
  induction chain with
  | nil => intro h _; exact h.elim
  | cons s rest ih =>
    intro h hl
    cases rest with
    | nil => exact ⟨h.1, by rw [hl s (by simp)]; exact h.2⟩
    | cons p rest2 =>
      obtain ⟨h1, h2, h3⟩ := h
      exact ⟨by rw [hl s (by simp)]; exact h1, h2,
        ih h3 (fun x hx => hl x (by simp [hx]))⟩

theorem parentChain_path {α : Type} [DecidableEq α]
    (nb : α → List (α × ℕ)) (start : α) (parents : List (α × Option α)) :
    ∀ chain (s : α), ParentChain nb start parents (s :: chain) →
      isPathB nb start s ((s :: chain).reverse) = true := by
  intro chain
  induction chain with
  | nil =>
    intro s h
    obtain ⟨rfl, -⟩ := h
    simp [isPathB, chainB]
  | cons p rest ih =>
    intro s h
    obtain ⟨h1, ⟨c, hc⟩, h3⟩ := h
    have hp := ih p h3
    have e : ((s :: p :: rest).reverse) = (p :: rest).reverse ++ [s] := by
      simp
    rw [e]
    refine isPathB_snoc nb hp ?_
    simp only [isStepB, List.any_eq_true, decide_eq_true_eq]
    exact ⟨(s, c), hc, rfl⟩

theorem reconstructIda_chain {α : Type} [DecidableEq α]
    (parents : List (α × Option α)) (nb : α → List (α × ℕ)) (start : α) :
    ∀ chain (s : α), ParentChain nb start parents (s :: chain) →
      ∀ fuel, chain.length ≤ fuel →
      reconstructIda parents fuel s = (s :: chain).reverse := by
  intro chain
  induction chain with
  | nil =>
    intro s h fuel hf
    cases fuel with
    | zero => rfl
    | succ f =>
      rw [reconstructIda, h.2]
      rfl
  | cons p rest ih =>
    intro s h fuel hf
    obtain ⟨h1, -, h3⟩ := h
    cases fuel with
    | zero => simp at hf
    | succ f =>
      rw [reconstructIda, h1]
      show reconstructIda parents f p ++ [s] = _
      rw [ih p h3 f (by simpa using hf)]
      simp

/-- The depth-first step of `ida_star` never rebinds a parent entry of a
state on the current path, and the parent map only grows. -/
theorem idaDfs_pres {α : Type} [DecidableEq α] (goal : α) (hfun : α → ℕ)
    (nb : α → List (α × ℕ)) (bpmx : Bool) (tO : ℕ → Bool) :
    ∀ fuel : ℕ,
      (∀ (state : α) (g bound h_s depth : ℕ) (pathset : List α)
        (st : IdaState α) (out : DfsRes × IdaState α),
        idaDfs goal hfun nb bpmx tO fuel state g bound h_s depth pathset
            st = out →
        (∀ x ∈ pathset, alookup out.2.parents x = alookup st.parents x) ∧
        st.parents.length ≤ out.2.parents.length) ∧
      (∀ (l : List (α × ℕ)) (state : α) (g bound : ℕ) (pathset : List α)
        (hp : ℕ) (mn : Option ℕ) (depth : ℕ) (st : IdaState α)
        (out : DfsRes × IdaState α),
        idaChildren goal hfun nb bpmx tO fuel state g bound pathset l hp
            mn depth st = out →
        (∀ x ∈ pathset, alookup out.2.parents x = alookup st.parents x) ∧
        st.parents.length ≤ out.2.parents.length) := by
  intro fuel
  induction fuel with
  | zero =>
    have hdfs : (∀ (state : α) (g bound h_s depth : ℕ) (pathset : List α)
        (st : IdaState α) (out : DfsRes × IdaState α),
        idaDfs goal hfun nb bpmx tO 0 state g bound h_s depth pathset
            st = out →
        (∀ x ∈ pathset, alookup out.2.parents x = alookup st.parents x) ∧
        st.parents.length ≤ out.2.parents.length) := by
      intro state g bound h_s depth pathset st out h
      rw [idaDfs] at h
      cases h
      exact ⟨fun x _ => rfl, Nat.le_refl _⟩
    refine ⟨hdfs, ?_⟩
    intro l
    induction l with
    | nil =>
      intro state g bound pathset hp mn depth st out h
      rw [idaChildren] at h
      cases h
      exact ⟨fun x _ => rfl, Nat.le_refl _⟩
    | cons q rest ihl =>
      intro state g bound pathset hp mn depth st out h
      obtain ⟨s2, c⟩ := q
      rw [idaChildren] at h
      split at h
      · exact ihl _ _ _ _ _ _ _ _ _ h
      · rename_i hnotin
        simp only [] at h
        repeat' split at h
        all_goals
          first
          | (cases h
             exact ⟨fun x _ => rfl, Nat.le_refl _⟩)
          | (rename_i st5 heq
             cases h
             repeat' split at heq
             all_goals
               (obtain ⟨hpres5, hlen5⟩ := hdfs _ _ _ _ _ _ _ _ heq
                have hpres5b : ∀ x ∈ s2 :: pathset, alookup st5.parents x =
                    alookup ((s2, some state) :: st.parents) x := hpres5
                have hlenb : st.parents.length + 1 ≤ st5.parents.length :=
                  hlen5
                exact ⟨fun x hx =>
                    (hpres5b x (List.mem_cons_of_mem _ hx)).trans
                      (alookup_cons_ne _ _ _ _ (fun e => hnotin (e ▸ hx))),
                  (by omega :
                    st.parents.length ≤ st5.parents.length)⟩))
          | (rename_i v st5 heq
             repeat' split at heq
             all_goals
               (obtain ⟨hpres5, hlen5⟩ := hdfs _ _ _ _ _ _ _ _ heq
                obtain ⟨hpresc, hlenc⟩ := ihl _ _ _ _ _ _ _ _ _ h
                have hpres5b : ∀ x ∈ s2 :: pathset, alookup st5.parents x =
                    alookup ((s2, some state) :: st.parents) x := hpres5
                have hlenb : st.parents.length + 1 ≤ st5.parents.length :=
                  hlen5
                exact ⟨fun x hx => (hpresc x hx).trans
                    ((hpres5b x (List.mem_cons_of_mem _ hx)).trans
                      (alookup_cons_ne _ _ _ _ (fun e => hnotin (e ▸ hx)))),
                  by omega⟩))
  | succ n ih =>
    have hdfs : (∀ (state : α) (g bound h_s depth : ℕ) (pathset : List α)
        (st : IdaState α) (out : DfsRes × IdaState α),
        idaDfs goal hfun nb bpmx tO (n + 1) state g bound h_s depth pathset
            st = out →
        (∀ x ∈ pathset, alookup out.2.parents x = alookup st.parents x) ∧
        st.parents.length ≤ out.2.parents.length) := by
      intro state g bound h_s depth pathset st out h
      rw [idaDfs] at h
      split at h
      · cases h
        exact ⟨fun x _ => rfl, Nat.le_refl _⟩
      · simp only [] at h
        split at h
        · cases h
          exact ⟨fun x _ => rfl, Nat.le_refl _⟩
        · split at h
          · cases h
            exact ⟨fun x _ => rfl, Nat.le_refl _⟩
          · have hc := ih.2 _ _ _ _ _ _ _ _ _ _ h
            exact hc
    refine ⟨hdfs, ?_⟩
    intro l
    induction l with
    | nil =>
      intro state g bound pathset hp mn depth st out h
      rw [idaChildren] at h
      cases h
      exact ⟨fun x _ => rfl, Nat.le_refl _⟩
    | cons q rest ihl =>
      intro state g bound pathset hp mn depth st out h
      obtain ⟨s2, c⟩ := q
      rw [idaChildren] at h
      split at h
      · exact ihl _ _ _ _ _ _ _ _ _ h
      · rename_i hnotin
        simp only [] at h
        repeat' split at h
        all_goals
          first
          | (cases h
             exact ⟨fun x _ => rfl, Nat.le_refl _⟩)
          | (rename_i st5 heq
             cases h
             repeat' split at heq
             all_goals
               (obtain ⟨hpres5, hlen5⟩ := hdfs _ _ _ _ _ _ _ _ heq
                have hpres5b : ∀ x ∈ s2 :: pathset, alookup st5.parents x =
                    alookup ((s2, some state) :: st.parents) x := hpres5
                have hlenb : st.parents.length + 1 ≤ st5.parents.length :=
                  hlen5
                exact ⟨fun x hx =>
                    (hpres5b x (List.mem_cons_of_mem _ hx)).trans
                      (alookup_cons_ne _ _ _ _ (fun e => hnotin (e ▸ hx))),
                  (by omega :
                    st.parents.length ≤ st5.parents.length)⟩))
          | (rename_i v st5 heq
             repeat' split at heq
             all_goals
               (obtain ⟨hpres5, hlen5⟩ := hdfs _ _ _ _ _ _ _ _ heq
                obtain ⟨hpresc, hlenc⟩ := ihl _ _ _ _ _ _ _ _ _ h
                have hpres5b : ∀ x ∈ s2 :: pathset, alookup st5.parents x =
                    alookup ((s2, some state) :: st.parents) x := hpres5
                have hlenb : st.parents.length + 1 ≤ st5.parents.length :=
                  hlen5
                exact ⟨fun x hx => (hpresc x hx).trans
                    ((hpres5b x (List.mem_cons_of_mem _ hx)).trans
                      (alookup_cons_ne _ _ _ _ (fun e => hnotin (e ▸ hx)))),
                  by omega⟩))

/-- Extending the current path by a fresh child `s2`: pushing its parent
binding preserves the chain and prepends `s2`. -/
theorem parentChain_extend {α : Type} [DecidableEq α]
    (nb : α → List (α × ℕ)) (start : α) (parents : List (α × Option α))
    (s2 state : α) (c : ℕ) (pathset : List α)
    (hpc : ParentChain nb start parents pathset)
    (hhead : pathset.head? = some state)
    (hedge : (s2, c) ∈ nb state)
    (hpres : ∀ x ∈ pathset, alookup ((s2, some state) :: parents) x =
      alookup parents x) :
    ParentChain nb start ((s2, some state) :: parents) (s2 :: pathset) := by
  cases pathset with
  | nil => exact hpc.elim
  | cons p tl =>
    have hps : p = state := by simpa using hhead
    subst hps
    exact ⟨alookup_cons_self _ _ _, ⟨c, hedge⟩,
      parentChain_congr nb start _ _ _ hpc hpres⟩

/-- A `found` result of the depth-first step leaves in `parents` a
goal-rooted back-pointer chain down to `start`, with the recorded solution
cost equal to the chain length minus one on unit-cost graphs. -/
theorem idaDfs_found_chain {α : Type} [DecidableEq α] (goal : α)
    (hfun : α → ℕ) (nb : α → List (α × ℕ)) (bpmx : Bool) (tO : ℕ → Bool)
    (start : α) :
    ∀ fuel : ℕ,
      (∀ (state : α) (g bound h_s depth : ℕ) (pathset : List α)
        (st st2 : IdaState α),
        idaDfs goal hfun nb bpmx tO fuel state g bound h_s depth pathset
            st = (.found, st2) →
        ParentChain nb start st.parents pathset →
        pathset.head? = some state →
        (UnitCost nb → g + 1 = pathset.length) →
        pathset.length ≤ st.parents.length + 1 →
        ∃ chain, ParentChain nb start st2.parents (goal :: chain) ∧
          ∃ gv, st2.solutionG = some gv ∧
            (UnitCost nb → gv + 1 = (goal :: chain).length) ∧
            (goal :: chain).length ≤ st2.parents.length + 1) ∧
      (∀ (l : List (α × ℕ)) (state : α) (g bound : ℕ) (pathset : List α)
        (hp : ℕ) (mn : Option ℕ) (depth : ℕ) (st st2 : IdaState α),
        idaChildren goal hfun nb bpmx tO fuel state g bound pathset l hp
            mn depth st = (.found, st2) →
        ParentChain nb start st.parents pathset →
        pathset.head? = some state →
        (UnitCost nb → g + 1 = pathset.length) →
        pathset.length ≤ st.parents.length + 1 →
        (∀ q ∈ l, q ∈ nb state) →
        ∃ chain, ParentChain nb start st2.parents (goal :: chain) ∧
          ∃ gv, st2.solutionG = some gv ∧
            (UnitCost nb → gv + 1 = (goal :: chain).length) ∧
            (goal :: chain).length ≤ st2.parents.length + 1) := by
  intro fuel
  induction fuel with
  | zero =>
    have hdfs : (∀ (state : α) (g bound h_s depth : ℕ) (pathset : List α)
        (st st2 : IdaState α),
        idaDfs goal hfun nb bpmx tO 0 state g bound h_s depth pathset
            st = (.found, st2) →
        ParentChain nb start st.parents pathset →
        pathset.head? = some state →
        (UnitCost nb → g + 1 = pathset.length) →
        pathset.length ≤ st.parents.length + 1 →
        ∃ chain, ParentChain nb start st2.parents (goal :: chain) ∧
          ∃ gv, st2.solutionG = some gv ∧
            (UnitCost nb → gv + 1 = (goal :: chain).length) ∧
            (goal :: chain).length ≤ st2.parents.length + 1) := by
      intro state g bound h_s depth pathset st st2 h
      rw [idaDfs] at h
      simp at h
    refine ⟨hdfs, ?_⟩
    intro l
    induction l with
    | nil =>
      intro state g bound pathset hp mn depth st st2 h hpc hhead hglen hplen hl
      rw [idaChildren] at h
      simp at h
    | cons q rest ihl =>
      intro state g bound pathset hp mn depth st st2 h hpc hhead hglen hplen hl
      obtain ⟨s2, c⟩ := q
      rw [idaChildren] at h
      split at h
      · exact ihl _ _ _ _ _ _ _ _ _ h hpc hhead hglen hplen
          (fun q hq => hl q (List.mem_cons_of_mem _ hq))
      · rename_i hnotin
        simp only [] at h
        repeat' split at h
        all_goals
          first
          | (simp at h
             done)
          | (rename_i st5 heq
             cases h
             repeat' split at heq
             all_goals
               exact hdfs _ _ _ _ _ _ _ _ heq
                 (parentChain_extend nb start st.parents s2 state c pathset
                   hpc hhead (hl (s2, c) (by simp))
                   (fun x hx =>
                     alookup_cons_ne _ _ _ _ (fun e => hnotin (e ▸ hx))))
                 rfl
                 (fun hu => by
                   have h1 := hglen hu
                   have h2 : c = 1 := hu state (s2, c) (hl (s2, c) (by simp))
                   have h3 : (s2 :: pathset).length = pathset.length + 1 := rfl
                   omega)
                 (by
                   have h3 : (s2 :: pathset).length = pathset.length + 1 := rfl
                   have h4 : ((s2, some state) :: st.parents).length =
                     st.parents.length + 1 := rfl
                   show (s2 :: pathset).length ≤
                     ((s2, some state) :: st.parents).length + 1
                   omega))
          | (rename_i v st5 heq
             repeat' split at heq
             all_goals
               (obtain ⟨hpres5, hlen5⟩ :=
                  (idaDfs_pres goal hfun nb bpmx tO 0).1 _ _ _ _ _ _ _ _
                    heq
                have hpres5b : ∀ x ∈ s2 :: pathset, alookup st5.parents x =
                    alookup ((s2, some state) :: st.parents) x := hpres5
                have hlenb : st.parents.length + 1 ≤ st5.parents.length :=
                  hlen5
                exact ihl _ _ _ _ _ _ _ _ _ h
                  (parentChain_congr nb start _ _ _ hpc (fun x hx =>
                    (hpres5b x (List.mem_cons_of_mem _ hx)).trans
                      (alookup_cons_ne _ _ _ _ (fun e => hnotin (e ▸ hx)))))
                  hhead hglen
                  ((by omega : pathset.length ≤ st5.parents.length + 1))
                  (fun q hq => hl q (List.mem_cons_of_mem _ hq))))
  | succ n ih =>
    have hdfs : (∀ (state : α) (g bound h_s depth : ℕ) (pathset : List α)
        (st st2 : IdaState α),
        idaDfs goal hfun nb bpmx tO (n + 1) state g bound h_s depth pathset
            st = (.found, st2) →
        ParentChain nb start st.parents pathset →
        pathset.head? = some state →
        (UnitCost nb → g + 1 = pathset.length) →
        pathset.length ≤ st.parents.length + 1 →
        ∃ chain, ParentChain nb start st2.parents (goal :: chain) ∧
          ∃ gv, st2.solutionG = some gv ∧
            (UnitCost nb → gv + 1 = (goal :: chain).length) ∧
            (goal :: chain).length ≤ st2.parents.length + 1) := by
      intro state g bound h_s depth pathset st st2 h hpc hhead hglen hplen
      rw [idaDfs] at h
      split at h
      · simp at h
      · simp only [] at h
        split at h
        · simp at h
        · split at h
          · rename_i hgoal
            cases h
            cases pathset with
            | nil => exact hpc.elim
            | cons s0 tl =>
              have h0 : s0 = state := by simpa using hhead
              refine ⟨tl, ?_, g, rfl, ?_, ?_⟩
              · rw [← hgoal, ← h0]
                exact hpc
              · intro hu
                have h1 := hglen hu
                simpa using h1
              · simpa using hplen
          · have hc := ih.2 _ _ _ _ _ _ _ _ _ _ h
            exact hc hpc hhead hglen hplen (fun q hq => hq)
    refine ⟨hdfs, ?_⟩
    intro l
    induction l with
    | nil =>
      intro state g bound pathset hp mn depth st st2 h hpc hhead hglen hplen hl
      rw [idaChildren] at h
      simp at h
    | cons q rest ihl =>
      intro state g bound pathset hp mn depth st st2 h hpc hhead hglen hplen hl
      obtain ⟨s2, c⟩ := q
      rw [idaChildren] at h
      split at h
      · exact ihl _ _ _ _ _ _ _ _ _ h hpc hhead hglen hplen
          (fun q hq => hl q (List.mem_cons_of_mem _ hq))
      · rename_i hnotin
        simp only [] at h
        repeat' split at h
        all_goals
          first
          | (simp at h
             done)
          | (rename_i st5 heq
             cases h
             repeat' split at heq
             all_goals
               exact hdfs _ _ _ _ _ _ _ _ heq
                 (parentChain_extend nb start st.parents s2 state c pathset
                   hpc hhead (hl (s2, c) (by simp))
                   (fun x hx =>
                     alookup_cons_ne _ _ _ _ (fun e => hnotin (e ▸ hx))))
                 rfl
                 (fun hu => by
                   have h1 := hglen hu
                   have h2 : c = 1 := hu state (s2, c) (hl (s2, c) (by simp))
                   have h3 : (s2 :: pathset).length = pathset.length + 1 := rfl
                   omega)
                 (by
                   have h3 : (s2 :: pathset).length = pathset.length + 1 := rfl
                   have h4 : ((s2, some state) :: st.parents).length =
                     st.parents.length + 1 := rfl
                   show (s2 :: pathset).length ≤
                     ((s2, some state) :: st.parents).length + 1
                   omega))
          | (rename_i v st5 heq
             repeat' split at heq
             all_goals
               (obtain ⟨hpres5, hlen5⟩ :=
                  (idaDfs_pres goal hfun nb bpmx tO (n + 1)).1 _ _ _ _ _ _ _ _
                    heq
                have hpres5b : ∀ x ∈ s2 :: pathset, alookup st5.parents x =
                    alookup ((s2, some state) :: st.parents) x := hpres5
                have hlenb : st.parents.length + 1 ≤ st5.parents.length :=
                  hlen5
                exact ihl _ _ _ _ _ _ _ _ _ h
                  (parentChain_congr nb start _ _ _ hpc (fun x hx =>
                    (hpres5b x (List.mem_cons_of_mem _ hx)).trans
                      (alookup_cons_ne _ _ _ _ (fun e => hnotin (e ▸ hx)))))
                  hhead hglen
                  ((by omega : pathset.length ≤ st5.parents.length + 1))
                  (fun q hq => hl q (List.mem_cons_of_mem _ hq))))

/-- The deepening loop of `ida_star`: an `ok` record carries a reconstructed
path that is a valid start-to-goal path, with `g` its unit cost. -/
theorem idaLoop_path {α : Type} [DecidableEq α] (start goal : α)
    (hfun : α → ℕ) (nb : α → List (α × ℕ)) (bpmx : Bool) (tO : ℕ → Bool)
    (h0 dfsFuel : ℕ) :
    ∀ (fuelOuter bound : ℕ) (st : IdaState α) (r : IdaRec α),
      alookup st.parents start = some none →
      idaLoop start goal hfun nb bpmx true tO h0 dfsFuel fuelOuter bound st =
          some r →
      r.termination = .ok →
      ∃ p, r.path = some p ∧ isPathB nb start goal p = true ∧
        (UnitCost nb → r.g = some (p.length - 1)) := by
  intro fuelOuter
  induction fuelOuter with
  | zero => intro bound st r hstart h hok; simp [idaLoop] at h
  | succ n ih =>
    intro bound st r hstart h hok
    rw [idaLoop] at h
    split at h
    · simp at h
    · cases h; simp [idaRecOf] at hok
    · rename_i st2 heq
      cases h
      have hch := (idaDfs_found_chain goal hfun nb bpmx tO start dfsFuel).1
        start 0 bound h0 0 [start] st st2 heq ⟨rfl, hstart⟩ rfl
        (fun _ => rfl)
        (by
          have h1 : ([start] : List α).length = 1 := rfl
          omega)
      obtain ⟨chain, hpc2, gv, hsol, hglen2, hclen⟩ := hch
      refine ⟨(goal :: chain).reverse, ?_, ?_, ?_⟩
      · show some (reconstructIda st2.parents st2.parents.length goal) = _
        rw [reconstructIda_chain st2.parents nb start chain goal hpc2
          st2.parents.length (by
            have h5 : (goal :: chain).length = chain.length + 1 := rfl
            omega)]
      · exact parentChain_path nb start st2.parents chain goal hpc2
      · intro hu
        have h5 := hglen2 hu
        have h6 : ((goal :: chain).reverse).length = (goal :: chain).length :=
          List.length_reverse _
        show st2.solutionG = _
        rw [hsol]
        congr 1
        omega
    · cases h; simp [idaRecOf] at hok
    · rename_i t st2 heq
      refine ih _ _ r ?_ h hok
      have hpres := ((idaDfs_pres goal hfun nb bpmx tO dfsFuel).1
        _ _ _ _ _ _ _ _ heq).1
      rw [hpres start (by simp)]
      exact hstart

/-- C5: whenever `a_star` or `ida_star` terminates `ok` with
`return_path = True`, the returned path starts at the start state, ends at
the goal state, follows edges of the supplied neighbor function throughout,
and on unit-cost domains its length minus one equals the returned cost. -/
theorem c5_path_validity {α : Type} [DecidableEq α] (start goal : α)
    (hfun : α → ℕ) (nb : α → List (α × ℕ)) (tie : String) (bpmx : Bool)
    (tO : ℕ → Bool) (fa fo fd : ℕ) :
    (∀ r : AStarRec α, aStar start goal hfun nb tie true tO fa = some r →
      r.termination = .ok →
      ∃ p, r.path = some p ∧ isPathB nb start goal p = true ∧
        (UnitCost nb → r.g = some (p.length - 1))) ∧
    (∀ r : IdaRec α, idaStar start goal hfun nb bpmx true tO fo fd = some r →
      r.termination = .ok →
      ∃ p, r.path = some p ∧ isPathB nb start goal p = true ∧
        (UnitCost nb → r.g = some (p.length - 1))) := by
  constructor
  · intro r h hok
    obtain ⟨node, hinv, hgoal, hpath, hg⟩ :=
      aStarLoop_path start goal hfun nb tie tO fa _ r
        (by
          intro e he
          simp only [List.mem_singleton] at he
          subst he
          exact ⟨rfl, rfl⟩)
        h hok
    obtain ⟨h1, h2⟩ := itemInv_path nb start node hinv
    rw [hgoal] at h1
    refine ⟨reconstructPathA node, hpath, h1, ?_⟩
    intro hu
    rw [hg, h2 hu]
    simp
  · intro r h hok
    exact idaLoop_path start goal hfun nb bpmx tO (hfun start) fd fo
      (hfun start) _ r (alookup_cons_self _ _ _) h hok
